import Mathlib

/-!
Verification of the network-synthesis engine (candidate generation, directed
candidate-graph construction, arborescence extraction, dead-end pruning and
cost aggregation) of the `c4g_renewvia` repository, against its
natural-language specification.

Modelling conventions:
* Machine floats are modelled as exact rationals (`ℚ`); all numeric literals
  of the source (`0.1`, `100.0`, `150.0`, ...) are exact in `ℚ`.
* A `networkx.DiGraph` is modelled as a finite node set together with a list
  of attributed directed edges (insertion order preserved; at most one edge
  per ordered pair is maintained by `addEdge`, mirroring `add_edge`
  overwrite semantics).
* `nx.descendants(G, n) | {n}` (the only way descendants are consumed by the
  source, `build_graph.py` line 98) is modelled by `reachSet`, the set of
  nodes reachable from `n` by a directed path of length ≥ 0.
* Iteration over `arbo.nodes()` (a Python insertion-ordered dict) is
  modelled by iterating over the node set sorted by index; the pruning
  result is independent of this order.
-/

/-- Edge attributes as set by `build_graph.py`: `weight`, `length`, `voltage`. -/
structure EdgeData where
  weight : ℚ
  length : ℚ
  voltage : String
  deriving DecidableEq

/-- A directed attributed edge `src → dst`. -/
structure Edge where
  src : ℕ
  dst : ℕ
  data : EdgeData
  deriving DecidableEq

/-- Model of `networkx.DiGraph`: node set plus attributed edge list. -/
structure DGraph where
  nodes : Finset ℕ
  edges : List Edge
  deriving DecidableEq

/-- Distance thresholds of `build_graph.py` (module constants). -/
def MIN_POLE_TO_TERMINAL : ℚ := 10

/-- Maximum admissible pole→terminal distance (`MAX_POLE_TO_TERMINAL`). -/
def MAX_POLE_TO_TERMINAL : ℚ := 100

/-- Minimum pole↔pole constant of the source (declared, unused in edge rules). -/
def MIN_POLE_TO_POLE : ℚ := 10

/-- Maximum admissible pole↔pole / source→pole distance (`MAX_POLE_TO_POLE`). -/
def MAX_POLE_TO_POLE : ℚ := 150

/-- `DG.add_edge(u, v, weight, length, voltage)`: networkx updates the
attributes in place when the ordered pair is already present, otherwise
appends a new edge; both endpoints are added to the node set. -/
def addEdge (g : DGraph) (u v : ℕ) (d : EdgeData) : DGraph :=
  { nodes := insert u (insert v g.nodes)
    edges :=
      if g.edges.any (fun e => e.src == u && e.dst == v) then
        g.edges.map (fun e =>
          if e.src = u ∧ e.dst = v then { src := e.src, dst := e.dst, data := d } else e)
      else
        g.edges ++ [{ src := u, dst := v, data := d }] }

/-- The empty directed graph (`nx.DiGraph()`). -/
def emptyDGraph : DGraph := { nodes := ∅, edges := [] }

/-- Apply a list of `add_edge` operations in order. -/
def applyAdds (g : DGraph) (l : List Edge) : DGraph :=
  l.foldl (fun h e => addEdge h e.src e.dst e.data) g

/-- Concatenation of per-element lists, used to model nested `for` loops. -/
def concatMap {α β : Type} (f : α → List β) : List α → List β
  | [] => []
  | a :: l => f a ++ concatMap f l

/-- All ordered pairs `(xs[i], xs[j])` with `i < j`, in row-major order,
modelling `for i in range(len(xs)): for j in range(i+1, len(xs))`. -/
def listPairs : List ℕ → List (ℕ × ℕ)
  | [] => []
  | x :: xs => xs.map (fun y => (x, y)) ++ listPairs xs

/-- Edges added by the poles → terminals loop of
`build_directed_graph_for_arborescence` (`build_graph.py` lines 46-51):
for each pole `p` and terminal `h`, if `0.1 < d ≤ MAX_POLE_TO_TERMINAL`
then add `p → h` with `weight = d`, `length = d`, `voltage = "low"`. -/
def poleTerminalAdds (terminalIndices poleIndices : List ℕ)
    (dist : ℕ → ℕ → ℚ) : List Edge :=
  concatMap (fun p =>
    terminalIndices.filterMap (fun h =>
      let d := dist p h
      if 0.1 < d ∧ d ≤ MAX_POLE_TO_TERMINAL then
        some { src := p, dst := h, data := { weight := d, length := d, voltage := "low" } }
      else none)) poleIndices

/-- Edges added by the bidirectional pole ↔ pole loop (`build_graph.py`
lines 54-61): for each pair `i < j`, with `d = dist p1 p2` and
`w = d + 100`, if `0.1 < d ≤ MAX_POLE_TO_POLE` then add both directions
with identical attributes and `voltage = "high"`. -/
def polePoleAdds (poleIndices : List ℕ) (dist : ℕ → ℕ → ℚ) : List Edge :=
  concatMap (fun pq =>
    let d := dist pq.1 pq.2
    let w := d + 100
    if 0.1 < d ∧ d ≤ MAX_POLE_TO_POLE then
      [{ src := pq.1, dst := pq.2, data := { weight := w, length := d, voltage := "high" } },
       { src := pq.2, dst := pq.1, data := { weight := w, length := d, voltage := "high" } }]
    else []) (listPairs poleIndices)

/-- Edges added by the source → poles loop (`build_graph.py` lines 64-68):
for each pole `p`, with `d = dist source p`, if `0.1 < d ≤ MAX_POLE_TO_POLE`
then add `source → p` with `weight = d`, `length = d`, `voltage = "high"`. -/
def sourcePoleAdds (sourceIdx : ℕ) (poleIndices : List ℕ)
    (dist : ℕ → ℕ → ℚ) : List Edge :=
  poleIndices.filterMap (fun p =>
    let d := dist sourceIdx p
    if 0.1 < d ∧ d ≤ MAX_POLE_TO_POLE then
      some { src := sourceIdx, dst := p,
             data := { weight := d, length := d, voltage := "high" } }
    else none)

/-- `build_directed_graph_for_arborescence` (`build_graph.py` lines 10-70):
the three loops in source order applied to the empty graph. -/
def buildDirectedGraphForArborescence (sourceIdx : ℕ)
    (terminalIndices poleIndices : List ℕ) (dist : ℕ → ℕ → ℚ) : DGraph :=
  applyAdds emptyDGraph
    (poleTerminalAdds terminalIndices poleIndices dist ++
     polePoleAdds poleIndices dist ++
     sourcePoleAdds sourceIdx poleIndices dist)

/-! ### Reachability (`nx.descendants`) -/

/-- Successors of `u`: targets of edges leaving `u`. -/
def succs (g : DGraph) (u : ℕ) : Finset ℕ :=
  ((g.edges.filter (fun e => e.src == u)).map Edge.dst).toFinset

/-- All edge targets of a graph (used to bound reachability iteration). -/
def dstSet (g : DGraph) : Finset ℕ := (g.edges.map Edge.dst).toFinset

/-- One breadth expansion of a node set. -/
def reachStep (g : DGraph) (s : Finset ℕ) : Finset ℕ :=
  s ∪ s.biUnion (succs g)

/-- The set of nodes reachable from `u` by a directed path of length ≥ 0;
this is `nx.descendants(g, u) | {u}` as used by the pruner
(`build_graph.py` line 98). The iteration count `edges.length + 1`
exceeds any saturation point. -/
def reachSet (g : DGraph) (u : ℕ) : Finset ℕ :=
  (reachStep g)^[g.edges.length + 1] {u}

/-- The single-step edge relation of a graph. -/
def EdgeRel (g : DGraph) (u v : ℕ) : Prop :=
  ∃ e ∈ g.edges, e.src = u ∧ e.dst = v

/-- Relational reachability: reflexive-transitive closure of `EdgeRel`. -/
def Reaches (g : DGraph) : ℕ → ℕ → Prop :=
  Relation.ReflTransGen (EdgeRel g)

/-- Out-degree of a node (number of edges leaving it). -/
def outDeg (g : DGraph) (u : ℕ) : ℕ :=
  (g.edges.filter (fun e => e.src == u)).length

/-- In-degree of a node (number of edges entering it). -/
def inDeg (g : DGraph) (u : ℕ) : ℕ :=
  (g.edges.filter (fun e => e.dst == u)).length

/-- Every edge endpoint is a node of the graph. -/
def WellFormed (g : DGraph) : Prop :=
  ∀ e ∈ g.edges, e.src ∈ g.nodes ∧ e.dst ∈ g.nodes

instance (g : DGraph) : Decidable (WellFormed g) :=
  inferInstanceAs (Decidable (∀ e ∈ g.edges, e.src ∈ g.nodes ∧ e.dst ∈ g.nodes))

/-! ### Pruning (`prune_dead_end_pole_branches`) -/

/-- `G.remove_node(n)`: drop the node and every incident edge. The source
first removes the incoming edges of the leaf explicitly and then calls
`remove_node`; the combined effect is this operation. -/
def removeNode (g : DGraph) (n : ℕ) : DGraph :=
  { nodes := g.nodes.erase n
    edges := g.edges.filter (fun e => !(e.src == n || e.dst == n)) }

/-- Leaves of the graph: nodes with zero out-degree, listed in increasing
index order (modelling iteration over `arbo.nodes()`; the pruning result
does not depend on the order). -/
def leaves (g : DGraph) : List ℕ :=
  (List.range (g.nodes.fold max 0 id + 1)).filter
    (fun n => decide (n ∈ g.nodes) && decide (outDeg g n = 0))

/-- Removal condition of `build_graph.py` lines 96-99: the leaf is a pole
and no member of `descendants ∪ {leaf}` is a terminal. -/
def pruneCond (g : DGraph) (poleIndices terminalIndices : List ℕ) (leaf : ℕ) : Prop :=
  leaf ∈ poleIndices ∧ ∀ d ∈ reachSet g leaf, d ∉ terminalIndices

instance (g : DGraph) (poleIndices terminalIndices : List ℕ) (leaf : ℕ) :
    Decidable (pruneCond g poleIndices terminalIndices leaf) :=
  inferInstanceAs
    (Decidable (leaf ∈ poleIndices ∧ ∀ d ∈ reachSet g leaf, d ∉ terminalIndices))

/-- Processing of one leaf inside the `for leaf in leaves` loop: if the
condition holds, remove the leaf and record that a removal happened. -/
def pruneStep (poleIndices terminalIndices : List ℕ)
    (s : DGraph × Bool) (leaf : ℕ) : DGraph × Bool :=
  if pruneCond s.1 poleIndices terminalIndices leaf then (removeNode s.1 leaf, true) else s

/-- One iteration of the `while removed` loop: scan the current leaves and
process each in turn, starting from `removed = False`. -/
def prunePass (g : DGraph) (poleIndices terminalIndices : List ℕ) : DGraph × Bool :=
  (leaves g).foldl (pruneStep poleIndices terminalIndices) (g, false)

/-- The `while removed` loop, fuelled; each pass that removes at least one
node strictly shrinks the node set, so `nodes.card + 1` passes reach the
fixed point. -/
def pruneLoop (poleIndices terminalIndices : List ℕ) : ℕ → DGraph → DGraph
  | 0, g => g
  | fuel + 1, g =>
    match prunePass g poleIndices terminalIndices with
    | (g2, true) => pruneLoop poleIndices terminalIndices fuel g2
    | (g2, false) => g2

/-- `prune_dead_end_pole_branches` (`build_graph.py` lines 73-106). -/
def pruneDeadEndPoleBranches (arbo : DGraph)
    (poleIndices terminalIndices : List ℕ) : DGraph :=
  pruneLoop poleIndices terminalIndices (arbo.nodes.card + 1) arbo

/-- An arborescence rooted at `root`: well-formed, the root is a node with
in-degree 0, every other node has in-degree exactly 1, and every node is
reachable from the root. -/
def isArborescence (g : DGraph) (root : ℕ) : Prop :=
  WellFormed g ∧ root ∈ g.nodes ∧ inDeg g root = 0 ∧
    (∀ n ∈ g.nodes, n ≠ root → inDeg g n = 1) ∧
    (∀ n ∈ g.nodes, n ∈ reachSet g root)

instance (g : DGraph) (root : ℕ) : Decidable (isArborescence g root) :=
  inferInstanceAs (Decidable (WellFormed g ∧ root ∈ g.nodes ∧ inDeg g root = 0 ∧
    (∀ n ∈ g.nodes, n ≠ root → inDeg g n = 1) ∧
    (∀ n ∈ g.nodes, n ∈ reachSet g root)))

/-! ### The simple pruning algorithm (claim C10's wording) -/

/-- Follows the claim's words: process a leaf by removing it exactly when it
is a pole, with no descendant check. -/
def simpleStep (poleIndices : List ℕ) (s : DGraph × Bool) (leaf : ℕ) : DGraph × Bool :=
  if leaf ∈ poleIndices then (removeNode s.1 leaf, true) else s

/-- Follows the claim's words: one round removing every zero-out-degree node
that is a pole, together with its incoming edges. -/
def simplePass (g : DGraph) (poleIndices : List ℕ) : DGraph × Bool :=
  (leaves g).foldl (simpleStep poleIndices) (g, false)

/-- Follows the claim's words: repeat the round until no pole leaf remains. -/
def simplePruneLoop (poleIndices : List ℕ) : ℕ → DGraph → DGraph
  | 0, g => g
  | fuel + 1, g =>
    match simplePass g poleIndices with
    | (g2, true) => simplePruneLoop poleIndices fuel g2
    | (g2, false) => g2

/-- Follows the claim's words: repeatedly remove every node in
`pole_indices` whose out-degree is zero, together with its incoming edges,
until none remains. -/
def simplePruneDeadPoles (arbo : DGraph) (poleIndices : List ℕ) : DGraph :=
  simplePruneLoop poleIndices (arbo.nodes.card + 1) arbo

/-! ### Rounding and cost aggregation (`mst.py`) -/

/-- Round a rational to the nearest integer, ties to even (the semantics of
Python 3 `round` and `np.round`, on exact values). -/
def roundHalfEven (x : ℚ) : ℤ :=
  let f := ⌊x⌋
  let r := x - f
  if r < 1 / 2 then f
  else if 1 / 2 < r then f + 1
  else if f % 2 = 0 then f else f + 1

/-- `round(x, 2)` on exact values. -/
def round2 (x : ℚ) : ℚ := (roundHalfEven (x * 100) : ℚ) / 100

/-- `np.round(x, 6)` on exact values. -/
def round6 (x : ℚ) : ℚ := (roundHalfEven (x * 1000000) : ℚ) / 1000000

/-- The cost map of the request: the three recognized keys, each possibly
absent (`costs.get(key, default)` in the source). -/
structure Costs where
  poleCost : Option ℚ
  lowVoltageCostPerMeter : Option ℚ
  highVoltageCostPerMeter : Option ℚ
  deriving DecidableEq

/-- Totals and estimates of the result dict assembled by `compute_mst`
(`mst.py` lines 139-149). The per-edge output records are reduced to the
fields relevant to aggregation (`lengthMeters`, `voltage`); coordinate and
name formatting is presentation-only and not modelled. -/
structure MstTotals where
  edges : List (ℚ × String)
  totalLowVoltageMeters : ℚ
  totalHighVoltageMeters : ℚ
  numPolesUsed : ℕ
  poleCostEstimate : ℚ
  lowWireCostEstimate : ℚ
  highWireCostEstimate : ℚ
  totalWireCostEstimate : ℚ
  totalCostEstimate : ℚ
  deriving DecidableEq

/-- `used_nodes = {u for u, v in mst.edges()} | {v for u, v in mst.edges()}`
(`mst.py` line 64). -/
def usedNodesOf (mstEdges : List Edge) : Finset ℕ :=
  mstEdges.foldl (fun s e => insert e.src (insert e.dst s)) ∅

/-- Body of the `for u, v, data in mst.edges(data=True)` loop (`mst.py`
lines 76-101): append the per-edge output record, then accumulate the
edge's length into the low or high total according to its voltage. -/
def totalsStep (a : List (ℚ × String) × ℚ × ℚ) (e : Edge) :
    List (ℚ × String) × ℚ × ℚ :=
  let outEdges := a.1 ++ [(round2 e.data.length, e.data.voltage)]
  if e.data.voltage = "low" then (outEdges, a.2.1 + e.data.length, a.2.2)
  else (outEdges, a.2.1, a.2.2 + e.data.length)

/-- The aggregation phase of `compute_mst` (`mst.py` lines 64-149): walk the
pruned tree's edges once, accumulating full-precision voltage totals and the
per-edge output list, then apply the cost model with defaults
`poleCost = 1500`, `lowVoltageCostPerMeter = 8`,
`highVoltageCostPerMeter = 25`, rounding only the outputs. -/
def computeTotals (mstEdges : List Edge) (poleIndices : List ℕ)
    (costs : Costs) : MstTotals :=
  let usedPoleIndices := poleIndices.filter (fun i => decide (i ∈ usedNodesOf mstEdges))
  let acc : List (ℚ × String) × ℚ × ℚ := mstEdges.foldl totalsStep ([], 0, 0)
  let totalLow := acc.2.1
  let totalHigh := acc.2.2
  let poleCost := costs.poleCost.getD 1500
  let lowCostM := costs.lowVoltageCostPerMeter.getD 8
  let highCostM := costs.highVoltageCostPerMeter.getD 25
  let numPoles := usedPoleIndices.length
  let poleCostEst := (numPoles : ℚ) * poleCost
  let lowWireEst := totalLow * lowCostM
  let highWireEst := totalHigh * highCostM
  let totalWireEst := lowWireEst + highWireEst
  let totalCostEst := poleCostEst + totalWireEst
  { edges := acc.1
    totalLowVoltageMeters := round2 totalLow
    totalHighVoltageMeters := round2 totalHigh
    numPolesUsed := numPoles
    poleCostEstimate := round2 poleCostEst
    lowWireCostEstimate := round2 lowWireEst
    highWireCostEstimate := round2 highWireEst
    totalWireCostEstimate := round2 totalWireEst
    totalCostEstimate := round2 totalCostEst }

/-! ### Arborescence solver (modelled from the spec) -/

/-- First element of minimum weight among a list of edges. -/
def pickMinWeight : List Edge → Option Edge
  | [] => none
  | e :: l =>
    match pickMinWeight l with
    | none => some e
    | some b => if b.data.weight < e.data.weight then some b else some e

/-- An admissible tree-growing edge: one leaving the covered node set. -/
def minCrossEdge (g : DGraph) (covered : Finset ℕ) : Option Edge :=
  pickMinWeight (g.edges.filter
    (fun e => decide (e.src ∈ covered) && decide (e.dst ∉ covered)))

/-- Growth loop of the modelled solver: repeatedly attach the minimum-weight
edge leaving the tree, keeping edge attributes. -/
def arboLoop (g : DGraph) : ℕ → DGraph → DGraph
  | 0, t => t
  | fuel + 1, t =>
    match minCrossEdge g t.nodes with
    | none => t
    | some e => arboLoop g fuel { nodes := insert e.dst t.nodes, edges := t.edges ++ [e] }

/-- Modelled from the spec: the Arborescence Solver of §4.3. The repository
delegates this step to the external library call
`nx.minimum_spanning_arborescence(DG, attr="weight", preserve_attrs=True,
default=1e18)` (`mst.py` line 58), whose code is not part of the
repository; per the spec the solver returns a directed spanning tree of the
source-reachable part of the candidate graph, every non-root node having
one incoming edge, nodes unreachable from the source being simply absent,
and the result degenerating to the source-only tree when the graph has no
edges. The model grows the tree greedily by minimum-weight crossing edges;
the global cost-minimality of the library algorithm is abstracted (no claim
depends on it). -/
def arboSpec (g : DGraph) (root : ℕ) : DGraph :=
  arboLoop g (g.edges.length + 1) { nodes := {root}, edges := [] }

/-- Outcome of the modelled `compute_mst` core: the solver output, the
pruned tree, and the aggregated totals. -/
structure MstOutcome where
  arbo : DGraph
  mst : DGraph
  totals : MstTotals

/-- The `compute_mst` pipeline from graph construction onwards (`mst.py`
lines 50-149): build the candidate graph, solve for an arborescence rooted
at the source, prune dead-end pole branches, aggregate totals. Candidate
synthesis and the haversine distance matrix are upstream of these inputs
(`source`, index lists, `dist`). -/
def computeMstModel (sourceIdx : ℕ) (terminalIndices poleIndices : List ℕ)
    (dist : ℕ → ℕ → ℚ) (costs : Costs) : MstOutcome :=
  let DG := buildDirectedGraphForArborescence sourceIdx terminalIndices poleIndices dist
  let arbo := arboSpec DG sourceIdx
  let mst := pruneDeadEndPoleBranches arbo poleIndices terminalIndices
  { arbo := arbo, mst := mst, totals := computeTotals mst.edges poleIndices costs }

/-! ### Candidate generation (`candidate_generation.py`) -/

/-- A geographic point `(lat, lon)` in degrees. -/
def Point : Type := ℚ × ℚ

instance : DecidableEq Point := by unfold Point; infer_instance

/-- Candidate-generation constants. `MIN_DIST_TO_TERMINAL` is written
`8.0,` in the source — a 1-tuple, which numpy broadcasting compares
elementwise, so the effective threshold is the scalar `8`. -/
def MIN_DIST_TO_TERMINAL : ℚ := 8

/-- Maximum allowed distance to the third-nearest input point. -/
def MAX_CIRCUMRADIUS : ℚ := 300

/-- Minimum pairwise separation of kept candidates, in meters. -/
def MIN_CANDIDATE_SEPARATION : ℚ := 10

/-- Insertion into a sorted list (helper for the sorts below). -/
def insertLe {α : Type} (le : α → α → Bool) (a : α) : List α → List α
  | [] => [a]
  | b :: l => if le a b then a :: b :: l else b :: insertLe le a l

/-- Insertion sort by a boolean comparison. Models the numpy sorts
(`np.argsort`, `np.unique` row ordering); numpy's internal sort algorithm
differs but no claim depends on the order of ties. -/
def sortLe {α : Type} (le : α → α → Bool) : List α → List α
  | [] => []
  | a :: l => insertLe le a (sortLe le l)

/-- Comparison by latitude (`np.argsort(candidates[:, 0])`). -/
def latLe (p q : Point) : Bool := decide (p.1 ≤ q.1)

/-- Lexicographic comparison of points (`np.unique` row order). -/
def lexLe (p q : Point) : Bool :=
  decide (p.1 < q.1) || (decide (p.1 = q.1) && decide (p.2 ≤ q.2))

/-- Round both coordinates to 6 decimal degrees. -/
def round6Pt (p : Point) : Point := (round6 p.1, round6 p.2)

/-- `np.unique(np.round(candidates, decimals=6), axis=0)`: round to 6
decimals, drop duplicate rows, return rows in lexicographic order. -/
def dedup6 (l : List Point) : List Point :=
  sortLe lexLe ((l.map round6Pt).dedup)

/-- The greedy minimum-separation filter (`candidate_generation.py`
lines 61-77 and 159-173): keep a point only if its distance to every
already-kept point is at least `MIN_CANDIDATE_SEPARATION`; the first point
is always kept. -/
def greedyAux (dist : Point → Point → ℚ) : List Point → List Point → List Point
  | kept, [] => kept
  | kept, pt :: rest =>
    if kept = [] then greedyAux dist [pt] rest
    else if kept.all (fun q => decide (MIN_CANDIDATE_SEPARATION ≤ dist pt q)) then
      greedyAux dist (kept ++ [pt]) rest
    else greedyAux dist kept rest

/-- Entry point of the greedy separation filter. -/
def greedyMinSep (dist : Point → Point → ℚ) (l : List Point) : List Point :=
  greedyAux dist [] l

/-- Post-processing tail of `generate_voronoi_candidates` (lines 48-77):
rounding dedup at 6 decimals, early return when at most one candidate
remains, otherwise latitude sort followed by the greedy filter. -/
def voronoiPost (dist : Point → Point → ℚ) (candidates : List Point) : List Point :=
  let c1 := dedup6 candidates
  if c1.length ≤ 1 then c1 else greedyMinSep dist (sortLe latLe c1)

/-- Post-processing tail of `generate_fermat_candidates` (lines 155-173):
latitude sort plus greedy filter when more than one candidate is present;
no deduplication step. -/
def fermatPost (dist : Point → Point → ℚ) (candidates : List Point) : List Point :=
  if 1 < candidates.length then greedyMinSep dist (sortLe latLe candidates) else candidates

/-- Follows the claim's words: the common post-processing both strategies
are claimed to conclude with — first the rounding-based deduplication at 6
decimal-degree precision, then the greedy latitude-sorted
minimum-separation filter. -/
def dedupThenFilterPost (dist : Point → Point → ℚ) (candidates : List Point) : List Point :=
  greedyMinSep dist (sortLe latLe (dedup6 candidates))

/-- Follows the claim's words (amended): the greedy latitude-sorted
minimum-separation filter alone, with no deduplication. -/
def filterOnlyPost (dist : Point → Point → ℚ) (candidates : List Point) : List Point :=
  greedyMinSep dist (sortLe latLe candidates)

/-- Initial per-vertex filter of `generate_voronoi_candidates`
(lines 30-42): keep a Voronoi vertex when its distance to the nearest
input point is ≥ `MIN_DIST_TO_TERMINAL` and its distance to the
third-nearest input point is ≤ `MAX_CIRCUMRADIUS`. `np.partition(d, 2)`
places the three smallest distances first; it is modelled by a full sort,
which agrees on the minimum and the third-smallest. -/
def voronoiKeep (dist : Point → Point → ℚ) (coords : List Point) (v : Point) : Bool :=
  let ds := sortLe (fun a b => decide (a ≤ b)) (coords.map (fun c => dist v c))
  decide (MIN_DIST_TO_TERMINAL ≤ ds.headD 0) && decide (ds.getD 2 0 ≤ MAX_CIRCUMRADIUS)

/-- `generate_voronoi_candidates` (`candidate_generation.py` lines 16-83).
The Voronoi diagram itself comes from `scipy.spatial.Voronoi` (external
Planar Decomposition capability, spec §9); its vertex list is taken as the
parameter `verts`, universally quantified in the theorems. Distances come
from the haversine formula (transcendental); the metric is the parameter
`dist`. -/
def generateVoronoiCandidates (dist : Point → Point → ℚ) (verts : List Point)
    (coords : List Point) : List Point :=
  if coords.length < 3 then []
  else if verts = [] then []
  else
    let candidates := verts.filter (voronoiKeep dist coords)
    if candidates = [] then [] else voronoiPost dist candidates

/-- `generate_fermat_candidates` (`candidate_generation.py` lines 120-178).
The Delaunay triangulation comes from `scipy.spatial.Delaunay` (external);
its simplex list is the parameter `simplices` (index triples into
`coords`). The per-triangle approximate Fermat–Torricelli point
(`fermat_torricelli_point`, lines 86-117) computes Euclidean side lengths
with square roots, irrational over `ℚ`; it is abstracted as the parameter
`fermatPt` — no claim depends on its value. The loop caps processing at
`maxCandidates` triangles. -/
def generateFermatCandidates (dist : Point → Point → ℚ)
    (fermatPt : Point → Point → Point → Point) (simplices : List (ℕ × ℕ × ℕ))
    (coords : List Point) (maxCandidates : ℕ) : List Point :=
  if coords.length < 3 then []
  else
    let candidates := (simplices.take maxCandidates).map (fun s =>
      fermatPt (coords.getD s.1 (0, 0)) (coords.getD s.2.1 (0, 0)) (coords.getD s.2.2 (0, 0)))
    if candidates = [] then [] else fermatPost dist candidates

/-! ### Concrete inputs used by witnesses and counterexamples -/

/-- The everywhere-zero metric (trivially symmetric). -/
def distZero : Point → Point → ℚ := fun _ _ => 0

/-- A distance matrix with `d(0,1) = d(1,0) = 120` and `0` elsewhere. -/
def distC2 : ℕ → ℕ → ℚ := fun i j =>
  if (i = 0 ∧ j = 1) ∨ (i = 1 ∧ j = 0) then 120 else 0

/-- A distance matrix realizing source → pole → terminal at 50 m each. -/
def distChain : ℕ → ℕ → ℚ := fun i j =>
  if (i = 0 ∧ j = 2) ∨ (i = 2 ∧ j = 0) then 50
  else if (i = 2 ∧ j = 1) ∨ (i = 1 ∧ j = 2) then 50
  else 0

/-- The two-node arborescence `0 → 1` used by the C1 counterexample. -/
def gC1 : DGraph :=
  { nodes := {0, 1}
    edges := [{ src := 0, dst := 1,
                data := { weight := 1, length := 1, voltage := "high" } }] }

/-- A three-node arborescence `0 → 2 → 1` (source 0, pole 2, terminal 1). -/
def gChain : DGraph :=
  { nodes := {0, 1, 2}
    edges := [{ src := 0, dst := 2,
                data := { weight := 50, length := 50, voltage := "high" } },
              { src := 2, dst := 1,
                data := { weight := 50, length := 50, voltage := "low" } }] }

/-- An empty cost map (all defaults apply). -/
def costsNone : Costs :=
  { poleCost := none, lowVoltageCostPerMeter := none, highVoltageCostPerMeter := none }

/-- The point whose 7th decimal is dropped by 6-decimal rounding. -/
def pC9 : Point := (1234567 / 10000000, 0)

/-- A Fermat-point stub returning the first triangle vertex. -/
def fermatFst : Point → Point → Point → Point := fun a _ _ => a

/-! ## Lemmas: reachability -/

theorem subset_reachStep (g : DGraph) (s : Finset ℕ) : s ⊆ reachStep g s :=
  Finset.subset_union_left

theorem reachStep_mono (g : DGraph) {s t : Finset ℕ} (h : s ⊆ t) :
    reachStep g s ⊆ reachStep g t := by
  unfold reachStep
  exact Finset.union_subset_union h (Finset.biUnion_subset_biUnion_of_subset_left _ h)

theorem iterate_reachStep_mono (g : DGraph) (k : ℕ) {s t : Finset ℕ} (h : s ⊆ t) :
    (reachStep g)^[k] s ⊆ (reachStep g)^[k] t := by
  induction k generalizing s t with
  | zero => simpa using h
  | succ k ih =>
    rw [Function.iterate_succ_apply, Function.iterate_succ_apply]
    exact ih (reachStep_mono g h)

theorem iterate_reachStep_le_succ (g : DGraph) (k : ℕ) (s : Finset ℕ) :
    (reachStep g)^[k] s ⊆ (reachStep g)^[k + 1] s := by
  rw [Function.iterate_succ_apply]
  exact iterate_reachStep_mono g k (subset_reachStep g s)

theorem iterate_reachStep_mono_fuel (g : DGraph) {k m : ℕ} (h : k ≤ m) (s : Finset ℕ) :
    (reachStep g)^[k] s ⊆ (reachStep g)^[m] s := by
  induction m with
  | zero =>
    have : k = 0 := Nat.le_zero.mp h
    subst this
    exact Finset.Subset.refl _
  | succ m ih =>
    rcases Nat.lt_or_ge k (m + 1) with hk | hk
    · exact (ih (Nat.lt_succ_iff.mp hk)).trans (iterate_reachStep_le_succ g m s)
    · have hkm : k = m + 1 := le_antisymm h hk
      subst hkm
      exact Finset.Subset.refl _

theorem succs_subset_dstSet (g : DGraph) (u : ℕ) : succs g u ⊆ dstSet g := by
  intro v hv
  unfold succs at hv
  unfold dstSet
  simp only [List.mem_toFinset, List.mem_map] at hv ⊢
  obtain ⟨e, he, rfl⟩ := hv
  exact ⟨e, (List.mem_filter.mp he).1, rfl⟩

theorem iterate_reachStep_bound (g : DGraph) (u : ℕ) (k : ℕ) :
    (reachStep g)^[k] {u} ⊆ insert u (dstSet g) := by
  induction k with
  | zero => simp
  | succ k ih =>
    rw [Function.iterate_succ_apply']
    unfold reachStep
    apply Finset.union_subset ih
    apply Finset.biUnion_subset.mpr
    intro x _
    exact (succs_subset_dstSet g x).trans (Finset.subset_insert _ _)

theorem reachStep_iterate_stab (g : DGraph) (u : ℕ) {k : ℕ}
    (h : (reachStep g)^[k + 1] {u} = (reachStep g)^[k] {u}) :
    ∀ m, k ≤ m → (reachStep g)^[m] {u} = (reachStep g)^[k] {u} := by
  intro m hm
  induction m with
  | zero =>
    have : k = 0 := Nat.le_zero.mp hm
    subst this; rfl
  | succ m ih =>
    rcases Nat.lt_or_ge k (m + 1) with hk | hk
    · have hkm := Nat.lt_succ_iff.mp hk
      have hstep := ih hkm
      calc (reachStep g)^[m + 1] {u} = reachStep g ((reachStep g)^[m] {u}) :=
            Function.iterate_succ_apply' _ _ _
        _ = reachStep g ((reachStep g)^[k] {u}) := by rw [hstep]
        _ = (reachStep g)^[k + 1] {u} := (Function.iterate_succ_apply' _ _ _).symm
        _ = (reachStep g)^[k] {u} := h
    · have hkm : k = m + 1 := le_antisymm hm hk
      subst hkm; rfl

theorem exists_stab (g : DGraph) (u : ℕ) :
    ∃ k, k ≤ g.edges.length ∧ (reachStep g)^[k + 1] {u} = (reachStep g)^[k] {u} := by
  by_contra hcon
  push_neg at hcon
  have hgrow : ∀ k, k ≤ g.edges.length + 1 → k + 1 ≤ ((reachStep g)^[k] {u}).card := by
    intro k
    induction k with
    | zero => intro _; simp
    | succ k ih =>
      intro hk
      have hk' : k ≤ g.edges.length := by omega
      have hne := hcon k hk'
      have hsub := iterate_reachStep_le_succ g k ({u} : Finset ℕ)
      have hss : (reachStep g)^[k] {u} ⊂ (reachStep g)^[k + 1] {u} :=
        HasSubset.Subset.ssubset_of_ne hsub (Ne.symm hne)
      have hlt := Finset.card_lt_card hss
      have ihk := ih (by omega)
      omega
  have h1 := hgrow (g.edges.length + 1) (le_refl _)
  have h2 : ((reachStep g)^[g.edges.length + 1] {u}).card ≤ (insert u (dstSet g)).card :=
    Finset.card_le_card (iterate_reachStep_bound g u _)
  have h3 : (insert u (dstSet g)).card ≤ (dstSet g).card + 1 := Finset.card_insert_le _ _
  have h4 : (dstSet g).card ≤ g.edges.length := by
    unfold dstSet
    exact (List.toFinset_card_le _).trans (by simp)
  omega

theorem reachSet_fixed (g : DGraph) (u : ℕ) :
    reachStep g (reachSet g u) = reachSet g u := by
  obtain ⟨k, hk, hstab⟩ := exists_stab g u
  have h1 : reachSet g u = (reachStep g)^[k] {u} :=
    reachStep_iterate_stab g u hstab _ (by omega)
  have h2 : (reachStep g)^[k + 1] {u} = reachStep g ((reachStep g)^[k] {u}) :=
    Function.iterate_succ_apply' _ _ _
  rw [h1, ← h2, hstab]

theorem mem_reachSet_self (g : DGraph) (u : ℕ) : u ∈ reachSet g u := by
  have hsub : ({u} : Finset ℕ) ⊆ reachSet g u := by
    have h := iterate_reachStep_mono_fuel g (Nat.zero_le (g.edges.length + 1)) ({u} : Finset ℕ)
    simpa using h
  exact hsub (Finset.mem_singleton_self u)

theorem mem_succs_iff (g : DGraph) (u v : ℕ) :
    v ∈ succs g u ↔ ∃ e ∈ g.edges, e.src = u ∧ e.dst = v := by
  unfold succs
  simp only [List.mem_toFinset, List.mem_map, List.mem_filter, beq_iff_eq]
  constructor
  · rintro ⟨e, ⟨he, hsrc⟩, rfl⟩
    exact ⟨e, he, hsrc, rfl⟩
  · rintro ⟨e, he, hsrc, hdst⟩
    exact ⟨e, ⟨he, hsrc⟩, hdst⟩

theorem reachSet_sound (g : DGraph) (u : ℕ) :
    ∀ m ∈ reachSet g u, Reaches g u m := by
  have main : ∀ (k : ℕ) (s : Finset ℕ), (∀ x ∈ s, Reaches g u x) →
      ∀ m ∈ (reachStep g)^[k] s, Reaches g u m := by
    intro k
    induction k with
    | zero =>
      intro s hs m hm
      exact hs m (by simpa using hm)
    | succ k ih =>
      intro s hs m hm
      rw [Function.iterate_succ_apply] at hm
      refine ih _ ?_ m hm
      intro x hx
      unfold reachStep at hx
      rcases Finset.mem_union.mp hx with h | h
      · exact hs x h
      · obtain ⟨y, hy, hxy⟩ := Finset.mem_biUnion.mp h
        obtain ⟨e, he, hsrc, hdst⟩ := (mem_succs_iff g y x).mp hxy
        exact Relation.ReflTransGen.tail (hs y hy) ⟨e, he, hsrc, hdst⟩
  intro m hm
  refine main _ {u} ?_ m hm
  intro x hx
  have : x = u := by simpa using hx
  subst this
  exact Relation.ReflTransGen.refl

theorem reachSet_complete (g : DGraph) {u m : ℕ} (h : Reaches g u m) :
    m ∈ reachSet g u := by
  induction h with
  | refl => exact mem_reachSet_self g u
  | tail _ hbc ih =>
    obtain ⟨e, he, hsrc, hdst⟩ := hbc
    have hc := (mem_succs_iff g _ _).mpr ⟨e, he, hsrc, hdst⟩
    have hm : _ ∈ reachStep g (reachSet g u) :=
      Finset.mem_union_right _ (Finset.mem_biUnion.mpr ⟨_, ih, hc⟩)
    rwa [reachSet_fixed] at hm

theorem mem_reachSet_iff (g : DGraph) (u m : ℕ) :
    m ∈ reachSet g u ↔ Reaches g u m :=
  ⟨reachSet_sound g u m, fun h => reachSet_complete g h⟩

theorem reaches_mono_edges {g h : DGraph} (hsub : ∀ e ∈ h.edges, e ∈ g.edges) {u m : ℕ}
    (hr : Reaches h u m) : Reaches g u m := by
  refine Relation.ReflTransGen.mono ?_ hr
  rintro a b ⟨e, he, hsrc, hdst⟩
  exact ⟨e, hsub e he, hsrc, hdst⟩

theorem reachSet_of_no_out (g : DGraph) (u : ℕ)
    (h : g.edges.filter (fun e => e.src == u) = []) : reachSet g u = {u} := by
  have hsucc : succs g u = ∅ := by
    unfold succs
    rw [h]
    rfl
  have hstep : reachStep g {u} = {u} := by
    unfold reachStep
    rw [Finset.singleton_biUnion, hsucc]
    simp
  have hiter : ∀ k, (reachStep g)^[k] ({u} : Finset ℕ) = {u} := by
    intro k
    induction k with
    | zero => rfl
    | succ k ih => rw [Function.iterate_succ_apply', ih, hstep]
  exact hiter _

theorem exists_sink_aux (g : DGraph)
    (hacyc : ∀ e ∈ g.edges, e.src ∉ reachSet g e.dst) :
    ∀ (n : ℕ) (u : ℕ), (reachSet g u).card ≤ n →
      ∃ s, Reaches g u s ∧ outDeg g s = 0 := by
  intro n
  induction n with
  | zero =>
    intro u hu
    have : 0 < (reachSet g u).card := Finset.card_pos.mpr ⟨u, mem_reachSet_self g u⟩
    omega
  | succ n ih =>
    intro u hu
    by_cases hout : outDeg g u = 0
    · exact ⟨u, Relation.ReflTransGen.refl, hout⟩
    · have hne : g.edges.filter (fun e => e.src == u) ≠ [] := by
        intro hnil
        exact hout (by unfold outDeg; rw [hnil]; rfl)
      obtain ⟨e, he⟩ := List.exists_mem_of_ne_nil _ hne
      have hmem := List.mem_filter.mp he
      have hsrc : e.src = u := by simpa using hmem.2
      have hre : Reaches g u e.dst :=
        Relation.ReflTransGen.single ⟨e, hmem.1, hsrc, rfl⟩
      have hsub : reachSet g e.dst ⊆ reachSet g u := by
        intro m hm
        exact reachSet_complete g (Relation.ReflTransGen.trans hre (reachSet_sound g _ m hm))
      have hu_not : u ∉ reachSet g e.dst := hsrc ▸ hacyc e hmem.1
      have hss : reachSet g e.dst ⊂ reachSet g u :=
        (Finset.ssubset_iff_of_subset hsub).mpr ⟨u, mem_reachSet_self g u, hu_not⟩
      have hcard := Finset.card_lt_card hss
      obtain ⟨s, hs1, hs2⟩ := ih e.dst (by omega)
      exact ⟨s, Relation.ReflTransGen.trans hre hs1, hs2⟩

theorem exists_sink (g : DGraph)
    (hacyc : ∀ e ∈ g.edges, e.src ∉ reachSet g e.dst) (u : ℕ) :
    ∃ s, Reaches g u s ∧ outDeg g s = 0 :=
  exists_sink_aux g hacyc _ u (le_refl _)

/-! ## Lemmas: pruning -/

theorem removeNode_nodes_subset (g : DGraph) (n : ℕ) :
    (removeNode g n).nodes ⊆ g.nodes := Finset.erase_subset _ _

theorem removeNode_edges_subset (g : DGraph) (n : ℕ) :
    ∀ e ∈ (removeNode g n).edges, e ∈ g.edges := by
  intro e he
  exact (List.mem_filter.mp he).1

theorem pruneStep_eq_pos {g : DGraph} {p t : List ℕ} {b : Bool} {x : ℕ}
    (h : pruneCond g p t x) :
    pruneStep p t (g, b) x = (removeNode g x, true) := by
  unfold pruneStep
  rw [if_pos h]

theorem pruneStep_eq_neg {g : DGraph} {p t : List ℕ} {b : Bool} {x : ℕ}
    (h : ¬ pruneCond g p t x) :
    pruneStep p t (g, b) x = (g, b) := by
  unfold pruneStep
  rw [if_neg h]

theorem prune_foldl_snd_mono (p t : List ℕ) (l : List ℕ) :
    ∀ s : DGraph × Bool, s.2 = true → (l.foldl (pruneStep p t) s).2 = true := by
  induction l with
  | nil => intro s hs; simpa using hs
  | cons x xs ih =>
    intro s hs
    rw [List.foldl_cons]
    by_cases hc : pruneCond s.1 p t x
    · exact ih _ (by rw [show s = (s.1, s.2) from rfl, pruneStep_eq_pos hc])
    · exact ih _ (by rw [show s = (s.1, s.2) from rfl, pruneStep_eq_neg hc]; exact hs)

theorem prune_foldl_subset (p t : List ℕ) (l : List ℕ) :
    ∀ s : DGraph × Bool,
      (l.foldl (pruneStep p t) s).1.nodes ⊆ s.1.nodes ∧
      (∀ e ∈ (l.foldl (pruneStep p t) s).1.edges, e ∈ s.1.edges) := by
  induction l with
  | nil => intro s; exact ⟨Finset.Subset.refl _, fun e he => he⟩
  | cons x xs ih =>
    intro s
    rw [List.foldl_cons]
    by_cases hc : pruneCond s.1 p t x
    · rw [show s = (s.1, s.2) from rfl, pruneStep_eq_pos hc]
      refine ⟨(ih _).1.trans (removeNode_nodes_subset _ _), fun e he => ?_⟩
      exact removeNode_edges_subset _ _ e ((ih _).2 e he)
    · rw [show s = (s.1, s.2) from rfl, pruneStep_eq_neg hc]
      exact ih _

theorem prune_foldl_false (p t : List ℕ) (l : List ℕ) (g : DGraph)
    (h : (l.foldl (pruneStep p t) (g, false)).2 = false) :
    l.foldl (pruneStep p t) (g, false) = (g, false) ∧ ∀ x ∈ l, ¬ pruneCond g p t x := by
  induction l with
  | nil => exact ⟨rfl, by simp⟩
  | cons x xs ih =>
    rw [List.foldl_cons] at h
    by_cases hc : pruneCond g p t x
    · exfalso
      rw [pruneStep_eq_pos hc] at h
      rw [prune_foldl_snd_mono p t xs _ rfl] at h
      exact Bool.true_eq_false.mp h
    · rw [pruneStep_eq_neg hc] at h
      obtain ⟨h1, h2⟩ := ih h
      refine ⟨by rw [List.foldl_cons, pruneStep_eq_neg hc, h1], ?_⟩
      intro y hy
      rcases List.mem_cons.mp hy with rfl | hy2
      · exact hc
      · exact h2 y hy2

theorem prune_foldl_card (p t : List ℕ) (l : List ℕ) :
    ∀ g : DGraph, (∀ x ∈ l, x ∈ g.nodes) →
      (l.foldl (pruneStep p t) (g, false)).2 = true →
      (l.foldl (pruneStep p t) (g, false)).1.nodes.card < g.nodes.card := by
  induction l with
  | nil => intro g _ h; exact absurd h (by simp)
  | cons x xs ih =>
    intro g hl h
    rw [List.foldl_cons] at h ⊢
    by_cases hc : pruneCond g p t x
    · rw [pruneStep_eq_pos hc] at h ⊢
      have hsub := (prune_foldl_subset p t xs (removeNode g x, true)).1
      have h1 : (xs.foldl (pruneStep p t) (removeNode g x, true)).1.nodes.card ≤
          (removeNode g x).nodes.card := Finset.card_le_card hsub
      have h2 : (removeNode g x).nodes.card < g.nodes.card :=
        Finset.card_erase_lt_of_mem (hl x (List.mem_cons_self x xs))
      omega
    · rw [pruneStep_eq_neg hc] at h ⊢
      exact ih g (fun y hy => hl y (List.mem_cons_of_mem x hy)) h

theorem mem_leaves (g : DGraph) (x : ℕ) :
    x ∈ leaves g ↔ x ∈ g.nodes ∧ outDeg g x = 0 := by
  unfold leaves
  simp only [List.mem_filter, List.mem_range, Bool.and_eq_true, decide_eq_true_eq]
  constructor
  · rintro ⟨_, h2, h3⟩
    exact ⟨h2, h3⟩
  · rintro ⟨h2, h3⟩
    refine ⟨?_, h2, h3⟩
    have hle : x ≤ g.nodes.fold max 0 id :=
      (Finset.le_fold_max x).mpr (Or.inr ⟨x, h2, le_refl x⟩)
    omega

theorem pruneLoop_fixed (p t : List ℕ) :
    ∀ (fuel : ℕ) (g : DGraph), g.nodes.card < fuel →
      prunePass (pruneLoop p t fuel g) p t = (pruneLoop p t fuel g, false) := by
  intro fuel
  induction fuel with
  | zero => intro g hg; omega
  | succ n ih =>
    intro g hg
    rcases hp : prunePass g p t with ⟨g2, b⟩
    cases b with
    | true =>
      have hcard : g2.nodes.card < g.nodes.card := by
        have hl : ∀ x ∈ leaves g, x ∈ g.nodes := fun x hx => ((mem_leaves g x).mp hx).1
        have := prune_foldl_card p t (leaves g) g hl
        rw [show (leaves g).foldl (pruneStep p t) (g, false) = prunePass g p t from rfl, hp] at this
        exact this rfl
      have hred : pruneLoop p t (n + 1) g = pruneLoop p t n g2 := by
        simp only [pruneLoop, hp]
      rw [hred]
      exact ih g2 (by omega)
    | false =>
      have hres := prune_foldl_false p t (leaves g) g
        (by rw [show (leaves g).foldl (pruneStep p t) (g, false) = prunePass g p t from rfl, hp])
      have hg2 : g2 = g := by
        have := hres.1
        rw [show (leaves g).foldl (pruneStep p t) (g, false) = prunePass g p t from rfl, hp] at this
        exact (Prod.mk.injEq _ _ _ _).mp this |>.1
      have hred : pruneLoop p t (n + 1) g = g2 := by
        simp only [pruneLoop, hp]
      rw [hred, hg2, hp, hg2]

theorem prunePass_fixed (g : DGraph) (p t : List ℕ) :
    prunePass (pruneDeadEndPoleBranches g p t) p t =
      (pruneDeadEndPoleBranches g p t, false) :=
  pruneLoop_fixed p t (g.nodes.card + 1) g (Nat.lt_succ_self _)

theorem pruneLoop_subset (p t : List ℕ) :
    ∀ (fuel : ℕ) (g : DGraph),
      (pruneLoop p t fuel g).nodes ⊆ g.nodes ∧
      (∀ e ∈ (pruneLoop p t fuel g).edges, e ∈ g.edges) := by
  intro fuel
  induction fuel with
  | zero => intro g; exact ⟨Finset.Subset.refl _, fun e he => he⟩
  | succ n ih =>
    intro g
    rcases hp : prunePass g p t with ⟨g2, b⟩
    have hsub := prune_foldl_subset p t (leaves g) (g, false)
    rw [show (leaves g).foldl (pruneStep p t) (g, false) = prunePass g p t from rfl, hp] at hsub
    cases b with
    | true =>
      have hred : pruneLoop p t (n + 1) g = pruneLoop p t n g2 := by
        simp only [pruneLoop, hp]
      rw [hred]
      exact ⟨(ih g2).1.trans hsub.1, fun e he => hsub.2 e ((ih g2).2 e he)⟩
    | false =>
      have hred : pruneLoop p t (n + 1) g = g2 := by
        simp only [pruneLoop, hp]
      rw [hred]
      exact hsub

theorem prune_nodes_subset (g : DGraph) (p t : List ℕ) :
    (pruneDeadEndPoleBranches g p t).nodes ⊆ g.nodes :=
  (pruneLoop_subset p t _ g).1

theorem prune_edges_subset (g : DGraph) (p t : List ℕ) :
    ∀ e ∈ (pruneDeadEndPoleBranches g p t).edges, e ∈ g.edges :=
  (pruneLoop_subset p t _ g).2

theorem prune_foldl_keeps (p t : List ℕ) (l : List ℕ) :
    ∀ (s : DGraph × Bool) (x : ℕ), x ∈ t → x ∈ s.1.nodes →
      x ∈ (l.foldl (pruneStep p t) s).1.nodes := by
  induction l with
  | nil => intro s x _ hx; simpa using hx
  | cons y ys ih =>
    intro s x hxt hx
    rw [List.foldl_cons]
    by_cases hc : pruneCond s.1 p t y
    · rw [show s = (s.1, s.2) from rfl, pruneStep_eq_pos hc]
      refine ih _ x hxt ?_
      have hyt : y ∉ t := hc.2 y (mem_reachSet_self s.1 y)
      have hxy : x ≠ y := fun h => hyt (h ▸ hxt)
      exact Finset.mem_erase.mpr ⟨hxy, hx⟩
    · rw [show s = (s.1, s.2) from rfl, pruneStep_eq_neg hc]
      exact ih _ x hxt hx

theorem pruneLoop_keeps (p t : List ℕ) :
    ∀ (fuel : ℕ) (g : DGraph) (x : ℕ), x ∈ t → x ∈ g.nodes →
      x ∈ (pruneLoop p t fuel g).nodes := by
  intro fuel
  induction fuel with
  | zero => intro g x _ hx; exact hx
  | succ n ih =>
    intro g x hxt hx
    rcases hp : prunePass g p t with ⟨g2, b⟩
    have hkeep := prune_foldl_keeps p t (leaves g) (g, false) x hxt hx
    rw [show (leaves g).foldl (pruneStep p t) (g, false) = prunePass g p t from rfl, hp] at hkeep
    cases b with
    | true =>
      have hred : pruneLoop p t (n + 1) g = pruneLoop p t n g2 := by
        simp only [pruneLoop, hp]
      rw [hred]
      exact ih g2 x hxt hkeep
    | false =>
      have hred : pruneLoop p t (n + 1) g = g2 := by
        simp only [pruneLoop, hp]
      rw [hred]
      exact hkeep

theorem prune_keeps_terminals (g : DGraph) (p t : List ℕ) :
    ∀ x ∈ t, x ∈ g.nodes → x ∈ (pruneDeadEndPoleBranches g p t).nodes :=
  fun x hxt hx => pruneLoop_keeps p t _ g x hxt hx

theorem removeNode_wf {g : DGraph} (hwf : WellFormed g) (n : ℕ) :
    WellFormed (removeNode g n) := by
  intro e he
  have hm := List.mem_filter.mp he
  have hends := hwf e hm.1
  have hne : e.src ≠ n ∧ e.dst ≠ n := by
    have := hm.2
    simp only [Bool.not_eq_true', Bool.or_eq_false_iff, beq_eq_false_iff_ne] at this
    exact this
  exact ⟨Finset.mem_erase.mpr ⟨hne.1, hends.1⟩, Finset.mem_erase.mpr ⟨hne.2, hends.2⟩⟩

theorem prune_foldl_wf (p t : List ℕ) (l : List ℕ) :
    ∀ s : DGraph × Bool, WellFormed s.1 →
      WellFormed (l.foldl (pruneStep p t) s).1 := by
  induction l with
  | nil => intro s hs; exact hs
  | cons x xs ih =>
    intro s hs
    rw [List.foldl_cons]
    by_cases hc : pruneCond s.1 p t x
    · rw [show s = (s.1, s.2) from rfl, pruneStep_eq_pos hc]
      exact ih _ (removeNode_wf hs x)
    · rw [show s = (s.1, s.2) from rfl, pruneStep_eq_neg hc]
      exact ih _ hs

theorem pruneLoop_wf (p t : List ℕ) :
    ∀ (fuel : ℕ) (g : DGraph), WellFormed g → WellFormed (pruneLoop p t fuel g) := by
  intro fuel
  induction fuel with
  | zero => intro g hg; exact hg
  | succ n ih =>
    intro g hg
    rcases hp : prunePass g p t with ⟨g2, b⟩
    have hwf2 := prune_foldl_wf p t (leaves g) (g, false) hg
    rw [show (leaves g).foldl (pruneStep p t) (g, false) = prunePass g p t from rfl, hp] at hwf2
    cases b with
    | true =>
      have hred : pruneLoop p t (n + 1) g = pruneLoop p t n g2 := by
        simp only [pruneLoop, hp]
      rw [hred]
      exact ih g2 hwf2
    | false =>
      have hred : pruneLoop p t (n + 1) g = g2 := by
        simp only [pruneLoop, hp]
      rw [hred]
      exact hwf2

theorem simpleStep_eq_pos {g : DGraph} {p : List ℕ} {b : Bool} {x : ℕ}
    (h : x ∈ p) : simpleStep p (g, b) x = (removeNode g x, true) := by
  unfold simpleStep
  rw [if_pos h]

theorem simpleStep_eq_neg {g : DGraph} {p : List ℕ} {b : Bool} {x : ℕ}
    (h : x ∉ p) : simpleStep p (g, b) x = (g, b) := by
  unfold simpleStep
  rw [if_neg h]

theorem outDeg_zero_filter {g : DGraph} {x : ℕ} (h : outDeg g x = 0) :
    g.edges.filter (fun e => e.src == x) = [] := by
  unfold outDeg at h
  exact List.length_eq_zero.mp h

theorem pruneCond_of_leaf {g0 g : DGraph} {p t : List ℕ} {x : ℕ}
    (hdisj : ∀ y ∈ p, y ∉ t) (hout : outDeg g0 x = 0)
    (hsub : ∀ e ∈ g.edges, e ∈ g0.edges) :
    pruneCond g p t x ↔ x ∈ p := by
  have hfil : g.edges.filter (fun e => e.src == x) = [] := by
    rcases hf : g.edges.filter (fun e => e.src == x) with _ | ⟨e, rest⟩
    · exact hf
    · exfalso
      have he : e ∈ g.edges.filter (fun e2 => e2.src == x) := by
        rw [hf]; exact List.mem_cons_self e rest
      have hm := List.mem_filter.mp he
      have : e ∈ g0.edges.filter (fun e2 => e2.src == x) :=
        List.mem_filter.mpr ⟨hsub e hm.1, hm.2⟩
      have h0 := outDeg_zero_filter hout
      rw [h0] at this
      exact absurd this (List.not_mem_nil e)
  have hreach : reachSet g x = {x} := reachSet_of_no_out g x hfil
  unfold pruneCond
  rw [hreach]
  constructor
  · rintro ⟨h1, _⟩
    exact h1
  · intro h1
    refine ⟨h1, fun d hd => ?_⟩
    have hdx : d = x := Finset.mem_singleton.mp hd
    subst hdx
    exact hdisj d h1

theorem prune_fold_eq_simple (p t : List ℕ) (hdisj : ∀ y ∈ p, y ∉ t) (g0 : DGraph) :
    ∀ (l : List ℕ) (g : DGraph) (b : Bool),
      (∀ x ∈ l, outDeg g0 x = 0) → (∀ e ∈ g.edges, e ∈ g0.edges) →
      l.foldl (pruneStep p t) (g, b) = l.foldl (simpleStep p) (g, b) := by
  intro l
  induction l with
  | nil => intro g b _ _; rfl
  | cons x xs ih =>
    intro g b hl hsub
    have hcond := pruneCond_of_leaf hdisj (hl x (List.mem_cons_self x xs)) hsub
    rw [List.foldl_cons, List.foldl_cons]
    by_cases hx : x ∈ p
    · rw [pruneStep_eq_pos (hcond.mpr hx), simpleStep_eq_pos hx]
      exact ih (removeNode g x) true (fun y hy => hl y (List.mem_cons_of_mem x hy))
        (fun e he => hsub e (removeNode_edges_subset g x e he))
    · rw [pruneStep_eq_neg (fun hc => hx (hcond.mp hc)), simpleStep_eq_neg hx]
      exact ih g b (fun y hy => hl y (List.mem_cons_of_mem x hy)) hsub

theorem prunePass_eq_simplePass (g : DGraph) (p t : List ℕ)
    (hdisj : ∀ y ∈ p, y ∉ t) : prunePass g p t = simplePass g p :=
  prune_fold_eq_simple p t hdisj g (leaves g) g false
    (fun x hx => ((mem_leaves g x).mp hx).2) (fun _ he => he)

theorem pruneLoop_eq_simpleLoop (p t : List ℕ) (hdisj : ∀ y ∈ p, y ∉ t) :
    ∀ (fuel : ℕ) (g : DGraph), pruneLoop p t fuel g = simplePruneLoop p fuel g := by
  intro fuel
  induction fuel with
  | zero => intro g; rfl
  | succ n ih =>
    intro g
    rcases hp : simplePass g p with ⟨g2, b⟩
    have hp2 : prunePass g p t = (g2, b) := by
      rw [prunePass_eq_simplePass g p t hdisj, hp]
    cases b with
    | true =>
      have h1 : pruneLoop p t (n + 1) g = pruneLoop p t n g2 := by
        simp only [pruneLoop, hp2]
      have h2 : simplePruneLoop p (n + 1) g = simplePruneLoop p n g2 := by
        simp only [simplePruneLoop, hp]
      rw [h1, h2]
      exact ih g2
    | false =>
      have h1 : pruneLoop p t (n + 1) g = g2 := by
        simp only [pruneLoop, hp2]
      have h2 : simplePruneLoop p (n + 1) g = g2 := by
        simp only [simplePruneLoop, hp]
      rw [h1, h2]

/-! ## Claim theorems -/

/-- C7: pruning is idempotent — for every arborescence (in fact for every
directed graph), every pole index list and every terminal index list,
applying `prune_dead_end_pole_branches` to its own output yields a graph
identical (same node set, same edges with the same attributes) to that
output. -/
theorem c7_prune_idempotent (g : DGraph) (p t : List ℕ) :
    pruneDeadEndPoleBranches (pruneDeadEndPoleBranches g p t) p t =
      pruneDeadEndPoleBranches g p t := by
  have hfix := prunePass_fixed g p t
  generalize hX : pruneDeadEndPoleBranches g p t = X at hfix ⊢
  unfold pruneDeadEndPoleBranches
  simp only [pruneLoop, hfix]

/-- C10: when the pole index list and the terminal index list are disjoint
(as `compute_mst` always supplies them), the descendant check inside
`prune_dead_end_pole_branches` is vacuous for a leaf, and the whole
procedure equals the simpler algorithm that repeatedly removes every
zero-out-degree node of `pole_indices` together with its incoming edges. -/
theorem c10_prune_equiv_simple (g : DGraph) (p t : List ℕ)
    (hdisj : ∀ y ∈ p, y ∉ t) :
    pruneDeadEndPoleBranches g p t = simplePruneDeadPoles g p :=
  pruneLoop_eq_simpleLoop p t hdisj _ g

/-- Witness for C10 at a concrete arborescence with disjoint index lists. -/
theorem c10_witness :
    pruneDeadEndPoleBranches gChain [2] [1] = simplePruneDeadPoles gChain [2] :=
  c10_prune_equiv_simple gChain [2] [1] (by decide)

/-- C1 (amended): for every well-formed acyclic directed graph — in
particular every arborescence — in which each node is a pole, a terminal,
or has in-degree 0 (as in the real pipeline, where the nodes are the
source, the terminals and the poles), the pruned tree contains no pole
node whose descendant set including itself lacks a terminal; and,
unconditionally, no terminal node is ever removed (hence no terminal leaf
and no pole leaf whose subtree contains a terminal is removed). -/
theorem c1_pruned_pole_serves_terminal (g : DGraph) (p t : List ℕ)
    (hwf : WellFormed g)
    (hacyc : ∀ e ∈ g.edges, e.src ∉ reachSet g e.dst)
    (hclass : ∀ n ∈ g.nodes, n ∈ p ∨ n ∈ t ∨ inDeg g n = 0) :
    (∀ q ∈ (pruneDeadEndPoleBranches g p t).nodes, q ∈ p →
        ∃ x ∈ reachSet (pruneDeadEndPoleBranches g p t) q, x ∈ t) ∧
      (∀ n ∈ g.nodes, n ∈ t → n ∈ (pruneDeadEndPoleBranches g p t).nodes) := by
  have hsubN := prune_nodes_subset g p t
  have hsubE := prune_edges_subset g p t
  have hwfR : WellFormed (pruneDeadEndPoleBranches g p t) := pruneLoop_wf p t _ g hwf
  have hacycR : ∀ e ∈ (pruneDeadEndPoleBranches g p t).edges,
      e.src ∉ reachSet (pruneDeadEndPoleBranches g p t) e.dst := by
    intro e he hmem
    have h1 := reachSet_sound _ _ _ hmem
    have h2 := reaches_mono_edges hsubE h1
    exact hacyc e (hsubE e he) (reachSet_complete g h2)
  have hfixAll : ∀ x ∈ leaves (pruneDeadEndPoleBranches g p t),
      ¬ pruneCond (pruneDeadEndPoleBranches g p t) p t x := by
    have hfp := prunePass_fixed g p t
    have hsnd : ((leaves (pruneDeadEndPoleBranches g p t)).foldl (pruneStep p t)
        (pruneDeadEndPoleBranches g p t, false)).2 = false := by
      have := congrArg Prod.snd hfp
      exact this
    exact (prune_foldl_false p t _ _ hsnd).2
  have hleaf : ∀ s ∈ (pruneDeadEndPoleBranches g p t).nodes,
      outDeg (pruneDeadEndPoleBranches g p t) s = 0 → s ∈ p →
      ∃ x ∈ reachSet (pruneDeadEndPoleBranches g p t) s, x ∈ t := by
    intro s hs hout hp
    have hmem : s ∈ leaves (pruneDeadEndPoleBranches g p t) :=
      (mem_leaves _ s).mpr ⟨hs, hout⟩
    have hnc := hfixAll s hmem
    unfold pruneCond at hnc
    push_neg at hnc
    obtain ⟨x, hx1, hx2⟩ := hnc hp
    exact ⟨x, hx1, hx2⟩
  constructor
  · intro q hq hqp
    obtain ⟨s, hreach, hout⟩ := exists_sink _ hacycR q
    by_cases hst : s ∈ t
    · exact ⟨s, reachSet_complete _ hreach, hst⟩
    · have hsp : s ∈ p ∧ s ∈ (pruneDeadEndPoleBranches g p t).nodes := by
        rcases Relation.ReflTransGen.cases_tail hreach with heq | ⟨c, _, hedge⟩
        · subst heq
          exact ⟨hqp, hq⟩
        · obtain ⟨e, he, hsrc, hdst⟩ := hedge
          have hsN : s ∈ (pruneDeadEndPoleBranches g p t).nodes := hdst ▸ (hwfR e he).2
          have hin : inDeg g s ≠ 0 := by
            intro h0
            have heg : e ∈ g.edges := hsubE e he
            have hfe : e ∈ g.edges.filter (fun e2 => e2.dst == s) :=
              List.mem_filter.mpr ⟨heg, by simp [hdst]⟩
            unfold inDeg at h0
            rw [List.length_eq_zero.mp h0] at hfe
            exact absurd hfe (List.not_mem_nil e)
          rcases hclass s (hsubN hsN) with h1 | h1 | h1
          · exact ⟨h1, hsN⟩
          · exact absurd h1 hst
          · exact absurd h1 hin
      obtain ⟨x, hx1, hx2⟩ := hleaf s hsp.2 hout hsp.1
      have hqx : Reaches (pruneDeadEndPoleBranches g p t) q x :=
        Relation.ReflTransGen.trans hreach (reachSet_sound _ s x hx1)
      exact ⟨x, reachSet_complete _ hqx, hx2⟩
  · intro n hn hnt
    exact prune_keeps_terminals g p t n hnt hn

/-- C1 counterexample: the claim as stated — quantified over every
arborescence and every pair of index lists — fails on the arborescence
`0 → 1` with `pole_indices = [0]` and `terminal_indices = []`: node 1 is a
leaf but not a pole, so nothing is removed, and the surviving pole 0 has no
terminal in its descendant set. -/
theorem c1_counterexample :
    isArborescence gC1 0 ∧
      (∃ q ∈ (pruneDeadEndPoleBranches gC1 [0] ([] : List ℕ)).nodes,
        q ∈ [0] ∧
          ∀ x ∈ reachSet (pruneDeadEndPoleBranches gC1 [0] ([] : List ℕ)) q,
            x ∉ ([] : List ℕ)) := by
  decide

/-- Witness for C1 (amended) at a concrete arborescence source → pole →
terminal. -/
theorem c1_witness :
    (∀ q ∈ (pruneDeadEndPoleBranches gChain [2] [1]).nodes, q ∈ [2] →
        ∃ x ∈ reachSet (pruneDeadEndPoleBranches gChain [2] [1]) q, x ∈ [1]) ∧
      (∀ n ∈ gChain.nodes, n ∈ [1] →
        n ∈ (pruneDeadEndPoleBranches gChain [2] [1]).nodes) :=
  c1_pruned_pole_serves_terminal gChain [2] [1] (by decide) (by decide) (by decide)

/-! ## Lemmas: graph construction -/

theorem mem_addEdge_edges {g : DGraph} {u v : ℕ} {d : EdgeData} {e : Edge}
    (h : e ∈ (addEdge g u v d).edges) :
    e ∈ g.edges ∨ e = { src := u, dst := v, data := d } := by
  unfold addEdge at h
  dsimp only at h
  split at h
  · obtain ⟨e0, he0, heq⟩ := List.mem_map.mp h
    by_cases hc : e0.src = u ∧ e0.dst = v
    · rw [if_pos hc] at heq
      right
      rw [← heq, hc.1, hc.2]
    · rw [if_neg hc] at heq
      exact Or.inl (heq ▸ he0)
  · rcases List.mem_append.mp h with h1 | h1
    · exact Or.inl h1
    · right
      simpa using h1

theorem mem_applyAdds {l : List Edge} :
    ∀ {g : DGraph} {e : Edge}, e ∈ (applyAdds g l).edges → e ∈ g.edges ∨ e ∈ l := by
  induction l with
  | nil => intro g e h; exact Or.inl h
  | cons a as ih =>
    intro g e h
    have h2 : e ∈ (applyAdds (addEdge g a.src a.dst a.data) as).edges := h
    rcases ih h2 with h1 | h1
    · rcases mem_addEdge_edges h1 with h3 | h3
      · exact Or.inl h3
      · right
        rw [h3]
        exact List.mem_cons_self _ _
    · exact Or.inr (List.mem_cons_of_mem a h1)

theorem mem_build_cases {sourceIdx : ℕ} {terms poles : List ℕ} {dist : ℕ → ℕ → ℚ}
    {e : Edge} (h : e ∈ (buildDirectedGraphForArborescence sourceIdx terms poles dist).edges) :
    e ∈ poleTerminalAdds terms poles dist ∨ e ∈ polePoleAdds poles dist ∨
      e ∈ sourcePoleAdds sourceIdx poles dist := by
  rcases mem_applyAdds h with h1 | h1
  · exact absurd h1 (List.not_mem_nil e)
  · rcases List.mem_append.mp h1 with h2 | h2
    · rcases List.mem_append.mp h2 with h3 | h3
      · exact Or.inl h3
      · exact Or.inr (Or.inl h3)
    · exact Or.inr (Or.inr h2)

theorem mem_concatMap {α β : Type} [DecidableEq β] (f : α → List β) (l : List α) (b : β) :
    b ∈ concatMap f l ↔ ∃ a ∈ l, b ∈ f a := by
  induction l with
  | nil => simp [concatMap]
  | cons x xs ih =>
    unfold concatMap
    rw [List.mem_append, ih]
    constructor
    · rintro (h | ⟨a, ha, hb⟩)
      · exact ⟨x, List.mem_cons_self _ _, h⟩
      · exact ⟨a, List.mem_cons_of_mem x ha, hb⟩
    · rintro ⟨a, ha, hb⟩
      rcases List.mem_cons.mp ha with rfl | ha2
      · exact Or.inl hb
      · exact Or.inr ⟨a, ha2, hb⟩

theorem mem_listPairs {l : List ℕ} {pq : ℕ × ℕ} (h : pq ∈ listPairs l) :
    pq.1 ∈ l ∧ pq.2 ∈ l := by
  induction l with
  | nil => simp [listPairs] at h
  | cons x xs ih =>
    unfold listPairs at h
    rcases List.mem_append.mp h with h1 | h1
    · obtain ⟨y, hy, rfl⟩ := List.mem_map.mp h1
      exact ⟨List.mem_cons_self _ _, List.mem_cons_of_mem _ hy⟩
    · obtain ⟨h2, h3⟩ := ih h1
      exact ⟨List.mem_cons_of_mem _ h2, List.mem_cons_of_mem _ h3⟩

theorem mem_poleTerminalAdds {terms poles : List ℕ} {dist : ℕ → ℕ → ℚ} {e : Edge} :
    e ∈ poleTerminalAdds terms poles dist ↔
      ∃ p ∈ poles, ∃ h ∈ terms,
        (0.1 < dist p h ∧ dist p h ≤ MAX_POLE_TO_TERMINAL) ∧
        e = { src := p, dst := h,
              data := { weight := dist p h, length := dist p h, voltage := "low" } } := by
  unfold poleTerminalAdds
  rw [mem_concatMap]
  constructor
  · rintro ⟨p, hp, hmem⟩
    obtain ⟨h, hh, heq⟩ := List.mem_filterMap.mp hmem
    dsimp only at heq
    split at heq
    case isTrue hc =>
      exact ⟨p, hp, h, hh, hc, ((Option.some.injEq _ _).mp heq).symm⟩
    case isFalse hc =>
      exact absurd heq (by simp)
  · rintro ⟨p, hp, h, hh, hc, rfl⟩
    refine ⟨p, hp, List.mem_filterMap.mpr ⟨h, hh, ?_⟩⟩
    dsimp only
    rw [if_pos hc]

theorem mem_sourcePoleAdds {sourceIdx : ℕ} {poles : List ℕ} {dist : ℕ → ℕ → ℚ} {e : Edge} :
    e ∈ sourcePoleAdds sourceIdx poles dist ↔
      ∃ p ∈ poles,
        (0.1 < dist sourceIdx p ∧ dist sourceIdx p ≤ MAX_POLE_TO_POLE) ∧
        e = { src := sourceIdx, dst := p,
              data := { weight := dist sourceIdx p, length := dist sourceIdx p,
                        voltage := "high" } } := by
  unfold sourcePoleAdds
  constructor
  · intro hmem
    obtain ⟨p, hp, heq⟩ := List.mem_filterMap.mp hmem
    dsimp only at heq
    split at heq
    case isTrue hc =>
      exact ⟨p, hp, hc, ((Option.some.injEq _ _).mp heq).symm⟩
    case isFalse hc =>
      exact absurd heq (by simp)
  · rintro ⟨p, hp, hc, rfl⟩
    refine List.mem_filterMap.mpr ⟨p, hp, ?_⟩
    dsimp only
    rw [if_pos hc]

theorem mem_polePoleAdds {poles : List ℕ} {dist : ℕ → ℕ → ℚ} {e : Edge} :
    e ∈ polePoleAdds poles dist ↔
      ∃ pq ∈ listPairs poles,
        (0.1 < dist pq.1 pq.2 ∧ dist pq.1 pq.2 ≤ MAX_POLE_TO_POLE) ∧
        (e = { src := pq.1, dst := pq.2,
               data := { weight := dist pq.1 pq.2 + 100, length := dist pq.1 pq.2,
                         voltage := "high" } } ∨
         e = { src := pq.2, dst := pq.1,
               data := { weight := dist pq.1 pq.2 + 100, length := dist pq.1 pq.2,
                         voltage := "high" } }) := by
  unfold polePoleAdds
  rw [mem_concatMap]
  constructor
  · rintro ⟨pq, hpq, hmem⟩
    dsimp only at hmem
    split at hmem
    case isTrue hc =>
      refine ⟨pq, hpq, hc, ?_⟩
      rcases List.mem_cons.mp hmem with h1 | h1
      · exact Or.inl h1
      · exact Or.inr (by simpa using h1)
    case isFalse hc =>
      exact absurd hmem (List.not_mem_nil e)
  · rintro ⟨pq, hpq, hc, hor⟩
    refine ⟨pq, hpq, ?_⟩
    dsimp only
    rw [if_pos hc]
    rcases hor with rfl | rfl
    · exact List.mem_cons_self _ _
    · exact List.mem_cons_of_mem _ (List.mem_cons_self _ _)

/-- C5: for every edge-add operation performed by
`build_directed_graph_for_arborescence` (whose result is exactly the three
add streams applied in source order), the `weight` attribute equals the raw
`length` for pole→terminal and source→pole adds and `length + 100` for
pole↔pole adds, and both directions of a pole↔pole pair are added with the
same attribute record (hence the same weight and length). -/
theorem c5_edge_weights (sourceIdx : ℕ) (terms poles : List ℕ) (dist : ℕ → ℕ → ℚ) :
    buildDirectedGraphForArborescence sourceIdx terms poles dist =
        applyAdds emptyDGraph
          (poleTerminalAdds terms poles dist ++ polePoleAdds poles dist ++
            sourcePoleAdds sourceIdx poles dist) ∧
      (∀ e ∈ poleTerminalAdds terms poles dist,
        e.data.weight = e.data.length ∧ e.data.voltage = "low") ∧
      (∀ e ∈ sourcePoleAdds sourceIdx poles dist,
        e.data.weight = e.data.length ∧ e.data.voltage = "high") ∧
      (∀ e ∈ polePoleAdds poles dist,
        e.data.weight = e.data.length + 100 ∧ e.data.voltage = "high" ∧
          ({ src := e.dst, dst := e.src, data := e.data } : Edge) ∈
            polePoleAdds poles dist) := by
  refine ⟨rfl, ?_, ?_, ?_⟩
  · intro e he
    obtain ⟨p, _, h, _, _, rfl⟩ := mem_poleTerminalAdds.mp he
    exact ⟨rfl, rfl⟩
  · intro e he
    obtain ⟨p, _, _, rfl⟩ := mem_sourcePoleAdds.mp he
    exact ⟨rfl, rfl⟩
  · intro e he
    obtain ⟨pq, hpq, hc, hor⟩ := mem_polePoleAdds.mp he
    rcases hor with rfl | rfl
    · exact ⟨rfl, rfl, mem_polePoleAdds.mpr ⟨pq, hpq, hc, Or.inr rfl⟩⟩
    · exact ⟨rfl, rfl, mem_polePoleAdds.mpr ⟨pq, hpq, hc, Or.inl rfl⟩⟩

/-- C2 (amended): provided the pole list is disjoint from the terminal list
and does not contain the source index (as `compute_mst` always supplies
them), every edge of the returned graph satisfies its type-specific bound —
pole→terminal edges have length in (0.1, 100] and voltage low, pole↔pole
edges have length in (0.1, 150] and voltage high, and source-rooted edges
go to a pole with length in (0.1, 150] and voltage high; moreover a pair at
distance exactly 0 (in both directions) never produces an edge. -/
theorem c2_edge_bounds (sourceIdx : ℕ) (terms poles : List ℕ) (dist : ℕ → ℕ → ℚ)
    (hdisj : ∀ x ∈ poles, x ∉ terms) (hsrc : sourceIdx ∉ poles) :
    (∀ e ∈ (buildDirectedGraphForArborescence sourceIdx terms poles dist).edges,
      (e.src ∈ poles → e.dst ∈ terms →
        0.1 < e.data.length ∧ e.data.length ≤ MAX_POLE_TO_TERMINAL ∧
          e.data.voltage = "low") ∧
      (e.src ∈ poles → e.dst ∈ poles →
        0.1 < e.data.length ∧ e.data.length ≤ MAX_POLE_TO_POLE ∧
          e.data.voltage = "high") ∧
      (e.src = sourceIdx →
        e.dst ∈ poles ∧ 0.1 < e.data.length ∧ e.data.length ≤ MAX_POLE_TO_POLE ∧
          e.data.voltage = "high")) ∧
    (∀ u v : ℕ, dist u v = 0 → dist v u = 0 →
      ∀ e ∈ (buildDirectedGraphForArborescence sourceIdx terms poles dist).edges,
        ¬(e.src = u ∧ e.dst = v)) := by
  constructor
  · intro e he
    rcases mem_build_cases he with hm | hm | hm
    · obtain ⟨p, hp, h, hh, hc, rfl⟩ := mem_poleTerminalAdds.mp hm
      refine ⟨fun _ _ => ⟨hc.1, hc.2, rfl⟩, fun _ hdp => ?_, fun hs => ?_⟩
      · exact absurd hh (hdisj h hdp)
      · exact absurd hp (by rw [← hs] at hsrc; exact hsrc)
    · obtain ⟨pq, hpq, hc, hor⟩ := mem_polePoleAdds.mp hm
      have hends := mem_listPairs hpq
      rcases hor with rfl | rfl
      · refine ⟨fun _ hdt => ?_, fun _ _ => ⟨hc.1, hc.2, rfl⟩, fun hs => ?_⟩
        · exact absurd hdt (hdisj pq.2 hends.2)
        · exact absurd hends.1 (by rw [← hs] at hsrc; exact hsrc)
      · refine ⟨fun _ hdt => ?_, fun _ _ => ⟨hc.1, hc.2, rfl⟩, fun hs => ?_⟩
        · exact absurd hdt (hdisj pq.1 hends.1)
        · exact absurd hends.2 (by rw [← hs] at hsrc; exact hsrc)
    · obtain ⟨p, hp, hc, rfl⟩ := mem_sourcePoleAdds.mp hm
      refine ⟨fun hsp _ => absurd hsp hsrc, fun hsp _ => absurd hsp hsrc,
        fun _ => ⟨hp, hc.1, hc.2, rfl⟩⟩
  · intro u v hu hv e he ⟨hesrc, hedst⟩
    rcases mem_build_cases he with hm | hm | hm
    · obtain ⟨p, _, h, _, hc, rfl⟩ := mem_poleTerminalAdds.mp hm
      dsimp only at hesrc hedst
      rw [hesrc, hedst, hu] at hc
      exact absurd hc.1 (by norm_num)
    · obtain ⟨pq, _, hc, hor⟩ := mem_polePoleAdds.mp hm
      rcases hor with rfl | rfl
      · dsimp only at hesrc hedst
        rw [hesrc, hedst, hu] at hc
        exact absurd hc.1 (by norm_num)
      · dsimp only at hesrc hedst
        rw [hesrc, hedst, hv] at hc
        exact absurd hc.1 (by norm_num)
    · obtain ⟨p, _, hc, rfl⟩ := mem_sourcePoleAdds.mp hm
      dsimp only at hesrc hedst
      rw [hesrc, hedst, hu] at hc
      exact absurd hc.1 (by norm_num)

/-- C2 counterexample: with overlapping index lists (`pole_indices = [0, 1]`,
`terminal_indices = [1]`, source 2) and a distance of 120 m between nodes 0
and 1, the returned graph contains an edge from a pole to a terminal whose
length exceeds 100 and whose voltage is "high" — the pole↔pole loop created
it — refuting the claim as stated over every index list. -/
theorem c2_counterexample :
    ∃ e ∈ (buildDirectedGraphForArborescence 2 [1] [0, 1] distC2).edges,
      e.src ∈ [0, 1] ∧ e.dst ∈ [1] ∧
        ¬(e.data.length ≤ MAX_POLE_TO_TERMINAL ∧ e.data.voltage = "low") := by
  have hedges : (buildDirectedGraphForArborescence 2 [1] [0, 1] distC2).edges =
      [{ src := 0, dst := 1,
         data := { weight := 220, length := 120, voltage := "high" } },
       { src := 1, dst := 0,
         data := { weight := 220, length := 120, voltage := "high" } }] := by
    norm_num [buildDirectedGraphForArborescence, applyAdds, addEdge, poleTerminalAdds,
      polePoleAdds, sourcePoleAdds, concatMap, listPairs, distC2, emptyDGraph,
      MAX_POLE_TO_TERMINAL, MAX_POLE_TO_POLE]
  refine ⟨{ src := 0, dst := 1,
            data := { weight := 220, length := 120, voltage := "high" } }, ?_, ?_, ?_, ?_⟩
  · rw [hedges]
    exact List.mem_cons_self _ _
  · exact List.mem_cons_self _ _
  · exact List.mem_cons_self _ _
  · rintro ⟨hlen, _⟩
    rw [MAX_POLE_TO_TERMINAL] at hlen
    norm_num at hlen

/-- Witness for C2 (amended) at a concrete disjoint input. -/
theorem c2_witness :
    (∀ e ∈ (buildDirectedGraphForArborescence 0 [1] [2] distChain).edges,
      (e.src ∈ [2] → e.dst ∈ [1] →
        0.1 < e.data.length ∧ e.data.length ≤ MAX_POLE_TO_TERMINAL ∧
          e.data.voltage = "low") ∧
      (e.src ∈ [2] → e.dst ∈ [2] →
        0.1 < e.data.length ∧ e.data.length ≤ MAX_POLE_TO_POLE ∧
          e.data.voltage = "high") ∧
      (e.src = 0 →
        e.dst ∈ [2] ∧ 0.1 < e.data.length ∧ e.data.length ≤ MAX_POLE_TO_POLE ∧
          e.data.voltage = "high")) ∧
    (∀ u v : ℕ, distChain u v = 0 → distChain v u = 0 →
      ∀ e ∈ (buildDirectedGraphForArborescence 0 [1] [2] distChain).edges,
        ¬(e.src = u ∧ e.dst = v)) :=
  c2_edge_bounds 0 [1] [2] distChain (by decide) (by decide)

/-! ## Lemmas: cost aggregation -/

theorem totals_foldl_sums (l : List Edge) :
    ∀ a : List (ℚ × String) × ℚ × ℚ,
      (l.foldl totalsStep a).2.1 =
          a.2.1 + ((l.filter (fun e => e.data.voltage == "low")).map
            (fun e => e.data.length)).sum ∧
        (l.foldl totalsStep a).2.2 =
          a.2.2 + ((l.filter (fun e => !(e.data.voltage == "low"))).map
            (fun e => e.data.length)).sum := by
  induction l with
  | nil => intro a; simp
  | cons e es ih =>
    intro a
    rw [List.foldl_cons]
    by_cases hv : e.data.voltage = "low"
    · have hstep : totalsStep a e =
          (a.1 ++ [(round2 e.data.length, e.data.voltage)],
            a.2.1 + e.data.length, a.2.2) := by
        unfold totalsStep
        rw [if_pos hv]
      rw [hstep]
      obtain ⟨ih1, ih2⟩ := ih (a.1 ++ [(round2 e.data.length, e.data.voltage)],
        a.2.1 + e.data.length, a.2.2)
      constructor
      · rw [ih1]
        simp [List.filter_cons, hv, add_assoc]
      · rw [ih2]
        simp [List.filter_cons, hv]
    · have hstep : totalsStep a e =
          (a.1 ++ [(round2 e.data.length, e.data.voltage)],
            a.2.1, a.2.2 + e.data.length) := by
        unfold totalsStep
        rw [if_neg hv]
      rw [hstep]
      obtain ⟨ih1, ih2⟩ := ih (a.1 ++ [(round2 e.data.length, e.data.voltage)],
        a.2.1, a.2.2 + e.data.length)
      constructor
      · rw [ih1]
        simp [List.filter_cons, hv]
      · rw [ih2]
        simp [List.filter_cons, hv, add_assoc]

theorem mem_usedNodes_foldl (l : List Edge) :
    ∀ (s : Finset ℕ) (i : ℕ),
      i ∈ l.foldl (fun s e => insert e.src (insert e.dst s)) s ↔
        i ∈ s ∨ ∃ e ∈ l, i = e.src ∨ i = e.dst := by
  induction l with
  | nil => intro s i; simp
  | cons e es ih =>
    intro s i
    rw [List.foldl_cons, ih]
    simp only [Finset.mem_insert, List.mem_cons]
    constructor
    · rintro ((rfl | rfl | h) | ⟨e2, he2, h2⟩)
      · exact Or.inr ⟨e, Or.inl rfl, Or.inl rfl⟩
      · exact Or.inr ⟨e, Or.inl rfl, Or.inr rfl⟩
      · exact Or.inl h
      · exact Or.inr ⟨e2, Or.inr he2, h2⟩
    · rintro (h | ⟨e2, (rfl | he2), h2⟩)
      · exact Or.inl (Or.inr (Or.inr h))
      · rcases h2 with rfl | rfl
        · exact Or.inl (Or.inl rfl)
        · exact Or.inl (Or.inr (Or.inl rfl))
      · exact Or.inr ⟨e2, he2, h2⟩

theorem mem_usedNodesOf (l : List Edge) (i : ℕ) :
    i ∈ usedNodesOf l ↔ ∃ e ∈ l, i = e.src ∨ i = e.dst := by
  unfold usedNodesOf
  rw [mem_usedNodes_foldl]
  simp

theorem usedPole_filter_eq (l : List Edge) (poleIndices : List ℕ) :
    poleIndices.filter (fun i => decide (i ∈ usedNodesOf l)) =
      poleIndices.filter (fun i => l.any (fun e => e.src == i || e.dst == i)) := by
  apply List.filter_congr
  intro i _
  rw [Bool.eq_iff_iff]
  rw [decide_eq_true_eq, mem_usedNodesOf, List.any_eq_true]
  constructor
  · rintro ⟨e, he, h | h⟩
    · exact ⟨e, he, by simp [h]⟩
    · exact ⟨e, he, by simp [h]⟩
  · rintro ⟨e, he, h⟩
    simp only [Bool.or_eq_true, beq_iff_eq] at h
    rcases h with h | h
    · exact ⟨e, he, Or.inl h.symm⟩
    · exact ⟨e, he, Or.inr h.symm⟩

/-- C6: for every pruned tree, pole index list and cost map, the totals
returned by the aggregation phase of `compute_mst` satisfy:
`totalLowVoltageMeters` is the full-precision sum of the lengths of the
"low" edges rounded to 2 decimals at output, `totalHighVoltageMeters` the
same for all other edges, `numPolesUsed` counts the pole indices that are
endpoints of surviving edges, and `totalCostEstimate` equals
pole_cost × poles_used + low_meters × low_rate + high_meters × high_rate
(rounded to 2 decimals), with defaults 1500, 8.0 and 25.0 for absent cost
keys. -/
theorem c6_totals (mstEdges : List Edge) (poleIndices : List ℕ) (costs : Costs) :
    (computeTotals mstEdges poleIndices costs).totalLowVoltageMeters =
        round2 (((mstEdges.filter (fun e => e.data.voltage == "low")).map
          (fun e => e.data.length)).sum) ∧
      (computeTotals mstEdges poleIndices costs).totalHighVoltageMeters =
        round2 (((mstEdges.filter (fun e => !(e.data.voltage == "low"))).map
          (fun e => e.data.length)).sum) ∧
      (computeTotals mstEdges poleIndices costs).numPolesUsed =
        (poleIndices.filter
          (fun i => mstEdges.any (fun e => e.src == i || e.dst == i))).length ∧
      (computeTotals mstEdges poleIndices costs).totalCostEstimate =
        round2 ((costs.poleCost.getD 1500) *
            ((poleIndices.filter
              (fun i => mstEdges.any (fun e => e.src == i || e.dst == i))).length : ℚ) +
          ((mstEdges.filter (fun e => e.data.voltage == "low")).map
            (fun e => e.data.length)).sum * (costs.lowVoltageCostPerMeter.getD 8) +
          ((mstEdges.filter (fun e => !(e.data.voltage == "low"))).map
            (fun e => e.data.length)).sum * (costs.highVoltageCostPerMeter.getD 25)) := by
  obtain ⟨hlow, hhigh⟩ := totals_foldl_sums mstEdges ([], 0, 0)
  have hlow0 : (mstEdges.foldl totalsStep ([], 0, 0)).2.1 =
      ((mstEdges.filter (fun e => e.data.voltage == "low")).map
        (fun e => e.data.length)).sum := by
    rw [hlow]; ring
  have hhigh0 : (mstEdges.foldl totalsStep ([], 0, 0)).2.2 =
      ((mstEdges.filter (fun e => !(e.data.voltage == "low"))).map
        (fun e => e.data.length)).sum := by
    rw [hhigh]; ring
  have h1 : (computeTotals mstEdges poleIndices costs).totalLowVoltageMeters =
      round2 ((mstEdges.foldl totalsStep ([], 0, 0)).2.1) := rfl
  have h2 : (computeTotals mstEdges poleIndices costs).totalHighVoltageMeters =
      round2 ((mstEdges.foldl totalsStep ([], 0, 0)).2.2) := rfl
  have h3 : (computeTotals mstEdges poleIndices costs).numPolesUsed =
      (poleIndices.filter (fun i => decide (i ∈ usedNodesOf mstEdges))).length := rfl
  have h4 : (computeTotals mstEdges poleIndices costs).totalCostEstimate =
      round2 (((poleIndices.filter
            (fun i => decide (i ∈ usedNodesOf mstEdges))).length : ℚ) *
          (costs.poleCost.getD 1500) +
        ((mstEdges.foldl totalsStep ([], 0, 0)).2.1 *
            (costs.lowVoltageCostPerMeter.getD 8) +
          (mstEdges.foldl totalsStep ([], 0, 0)).2.2 *
            (costs.highVoltageCostPerMeter.getD 25))) := rfl
  refine ⟨by rw [h1, hlow0], by rw [h2, hhigh0], by rw [h3, usedPole_filter_eq], ?_⟩
  rw [h4, usedPole_filter_eq, hlow0, hhigh0]
  congr 1
  ring

/-! ## Lemmas: arborescence solver model -/

theorem pickMinWeight_mem : ∀ {l : List Edge} {e : Edge},
    pickMinWeight l = some e → e ∈ l := by
  intro l
  induction l with
  | nil => intro e h; simp [pickMinWeight] at h
  | cons a as ih =>
    intro e h
    unfold pickMinWeight at h
    rcases hp : pickMinWeight as with _ | b
    · rw [hp] at h
      dsimp only at h
      have : a = e := Option.some.injEq _ _ |>.mp h
      rw [← this]
      exact List.mem_cons_self _ _
    · rw [hp] at h
      dsimp only at h
      split at h
      · have : b = e := Option.some.injEq _ _ |>.mp h
        exact List.mem_cons_of_mem a (this ▸ ih hp)
      · have : a = e := Option.some.injEq _ _ |>.mp h
        rw [← this]
        exact List.mem_cons_self _ _

theorem minCrossEdge_spec {g : DGraph} {s : Finset ℕ} {e : Edge}
    (h : minCrossEdge g s = some e) : e ∈ g.edges ∧ e.src ∈ s ∧ e.dst ∉ s := by
  have hm := pickMinWeight_mem h
  have hmf := List.mem_filter.mp hm
  refine ⟨hmf.1, ?_, ?_⟩
  · have := hmf.2
    simp only [Bool.and_eq_true, decide_eq_true_eq] at this
    exact this.1
  · have := hmf.2
    simp only [Bool.and_eq_true, decide_eq_true_eq] at this
    exact this.2

theorem arboLoop_nodes_reach (g : DGraph) (root : ℕ) :
    ∀ (fuel : ℕ) (t : DGraph), (∀ n ∈ t.nodes, n ∈ reachSet g root) →
      ∀ n ∈ (arboLoop g fuel t).nodes, n ∈ reachSet g root := by
  intro fuel
  induction fuel with
  | zero => intro t ht; exact ht
  | succ k ih =>
    intro t ht
    rcases hm : minCrossEdge g t.nodes with _ | e
    · have hred : arboLoop g (k + 1) t = t := by
        simp only [arboLoop, hm]
      rw [hred]
      exact ht
    · have hred : arboLoop g (k + 1) t =
          arboLoop g k { nodes := insert e.dst t.nodes, edges := t.edges ++ [e] } := by
        simp only [arboLoop, hm]
      rw [hred]
      apply ih
      intro n hn
      rcases Finset.mem_insert.mp hn with rfl | hn2
      · obtain ⟨he, hsrc, _⟩ := minCrossEdge_spec hm
        have h1 : Reaches g root e.src := reachSet_sound _ _ _ (ht e.src hsrc)
        exact reachSet_complete g (Relation.ReflTransGen.tail h1 ⟨e, he, rfl, rfl⟩)
      · exact ht n hn2

theorem arboSpec_nodes_reach (g : DGraph) (root : ℕ) :
    ∀ n ∈ (arboSpec g root).nodes, n ∈ reachSet g root := by
  unfold arboSpec
  apply arboLoop_nodes_reach
  intro n hn
  have hn2 : n = root := Finset.mem_singleton.mp hn
  rw [hn2]
  exact mem_reachSet_self g root

/-- C3: for every input to the `compute_mst` core, any node unreachable
from the source in the built candidate graph is absent from the resulting
(pruned) tree; the pipeline is a total function, so this is never an error
condition — a result is returned for every such input. -/
theorem c3_unreachable_absent (sourceIdx : ℕ) (terms poles : List ℕ)
    (dist : ℕ → ℕ → ℚ) (costs : Costs) (n : ℕ)
    (h : n ∉ reachSet
      (buildDirectedGraphForArborescence sourceIdx terms poles dist) sourceIdx) :
    n ∉ (computeMstModel sourceIdx terms poles dist costs).mst.nodes := by
  intro hmem
  apply h
  have hmem2 : n ∈ (arboSpec
      (buildDirectedGraphForArborescence sourceIdx terms poles dist) sourceIdx).nodes :=
    prune_nodes_subset _ poles terms hmem
  exact arboSpec_nodes_reach _ _ n hmem2

/-- Witness for C3: node 5 has no admissible path from the source in a
candidate graph with no poles, and is absent from the result. -/
theorem c3_witness :
    (5 : ℕ) ∉ (computeMstModel 0 [1] [] (fun _ _ => 0) costsNone).mst.nodes :=
  c3_unreachable_absent 0 [1] [] (fun _ _ => 0) costsNone 5 (by decide)

/-- C4: for every input on which the built candidate graph has no edges,
the arborescence result is the degenerate tree containing only the source
node, and the pipeline returns a result with zero edges rather than
failing. -/
theorem c4_no_edges_degenerate (sourceIdx : ℕ) (terms poles : List ℕ)
    (dist : ℕ → ℕ → ℚ) (costs : Costs)
    (h : (buildDirectedGraphForArborescence sourceIdx terms poles dist).edges = []) :
    (computeMstModel sourceIdx terms poles dist costs).arbo =
        { nodes := {sourceIdx}, edges := [] } ∧
      (computeMstModel sourceIdx terms poles dist costs).mst.edges = [] ∧
      (computeMstModel sourceIdx terms poles dist costs).totals.edges = [] := by
  have hmc : minCrossEdge (buildDirectedGraphForArborescence sourceIdx terms poles dist)
      ({sourceIdx} : Finset ℕ) = none := by
    unfold minCrossEdge
    rw [h]
    rfl
  have harbo0 : arboSpec (buildDirectedGraphForArborescence sourceIdx terms poles dist)
      sourceIdx = { nodes := {sourceIdx}, edges := [] } := by
    unfold arboSpec
    rw [h]
    simp only [arboLoop, hmc]
  have harbo : (computeMstModel sourceIdx terms poles dist costs).arbo =
      { nodes := {sourceIdx}, edges := [] } := harbo0
  have hmst : (computeMstModel sourceIdx terms poles dist costs).mst.edges = [] := by
    show (pruneDeadEndPoleBranches
      (arboSpec (buildDirectedGraphForArborescence sourceIdx terms poles dist) sourceIdx)
      poles terms).edges = []
    rw [harbo0]
    refine List.eq_nil_iff_forall_not_mem.mpr ?_
    intro e he
    exact absurd (prune_edges_subset _ poles terms e he) (List.not_mem_nil e)
  refine ⟨harbo, hmst, ?_⟩
  show (computeTotals (computeMstModel sourceIdx terms poles dist costs).mst.edges
    poles costs).edges = []
  rw [hmst]
  rfl

/-- Witness for C4 at an input with no poles, whose candidate graph is
edgeless. -/
theorem c4_witness :
    (computeMstModel 0 [] [] (fun _ _ => 0) costsNone).arbo =
        { nodes := {0}, edges := [] } ∧
      (computeMstModel 0 [] [] (fun _ _ => 0) costsNone).mst.edges = [] ∧
      (computeMstModel 0 [] [] (fun _ _ => 0) costsNone).totals.edges = [] :=
  c4_no_edges_degenerate 0 [] [] (fun _ _ => 0) costsNone rfl

/-! ## Lemmas: candidate generation -/

theorem greedyAux_pairwise (dist : Point → Point → ℚ)
    (hsymm : ∀ a b, dist a b = dist b a) :
    ∀ (l kept : List Point),
      kept.Pairwise (fun a b => MIN_CANDIDATE_SEPARATION ≤ dist a b) →
      (greedyAux dist kept l).Pairwise
        (fun a b => MIN_CANDIDATE_SEPARATION ≤ dist a b) := by
  intro l
  induction l with
  | nil => intro kept hk; exact hk
  | cons pt rest ih =>
    intro kept hk
    unfold greedyAux
    by_cases hke : kept = []
    · rw [if_pos hke]
      exact ih [pt] (List.pairwise_singleton _ _)
    · rw [if_neg hke]
      by_cases hall :
          kept.all (fun q => decide (MIN_CANDIDATE_SEPARATION ≤ dist pt q)) = true
      · rw [if_pos hall]
        apply ih
        rw [List.pairwise_append]
        refine ⟨hk, List.pairwise_singleton _ _, ?_⟩
        intro a ha b hb
        have hb2 : b = pt := List.mem_singleton.mp hb
        subst hb2
        have hq := List.all_eq_true.mp hall a ha
        rw [decide_eq_true_eq] at hq
        rw [hsymm]
        exact hq
      · rw [if_neg hall]
        exact ih kept hk

theorem greedyMinSep_pairwise (dist : Point → Point → ℚ)
    (hsymm : ∀ a b, dist a b = dist b a) (l : List Point) :
    (greedyMinSep dist l).Pairwise
      (fun a b => MIN_CANDIDATE_SEPARATION ≤ dist a b) :=
  greedyAux_pairwise dist hsymm l [] List.Pairwise.nil

theorem pairwise_of_length_le_one {α : Type} {R : α → α → Prop} :
    ∀ {l : List α}, l.length ≤ 1 → l.Pairwise R := by
  intro l h
  match l with
  | [] => exact List.Pairwise.nil
  | [a] => exact List.pairwise_singleton R a
  | a :: b :: t => simp at h

theorem greedy_short (dist : Point → Point → ℚ) :
    ∀ {c : List Point}, c.length ≤ 1 → greedyMinSep dist (sortLe latLe c) = c := by
  intro c h
  match c with
  | [] => rfl
  | [a] => rfl
  | a :: b :: t => simp at h

/-- C8: both candidate generators return a list in which every pair of
distinct candidates is at distance at least `MIN_CANDIDATE_SEPARATION`
(10 m) under the — symmetric — metric, and for fewer than 3 input points
both return the empty candidate set. Quantified over the outputs of the
external Voronoi / Delaunay / Fermat-point computations. -/
theorem c8_candidate_separation (dist : Point → Point → ℚ)
    (verts coords : List Point) (fermatPt : Point → Point → Point → Point)
    (simplices : List (ℕ × ℕ × ℕ)) (maxCandidates : ℕ)
    (hsymm : ∀ a b, dist a b = dist b a) :
    (generateVoronoiCandidates dist verts coords).Pairwise
        (fun a b => MIN_CANDIDATE_SEPARATION ≤ dist a b) ∧
      (generateFermatCandidates dist fermatPt simplices coords maxCandidates).Pairwise
        (fun a b => MIN_CANDIDATE_SEPARATION ≤ dist a b) ∧
      (coords.length < 3 →
        generateVoronoiCandidates dist verts coords = [] ∧
          generateFermatCandidates dist fermatPt simplices coords maxCandidates = []) := by
  refine ⟨?_, ?_, ?_⟩
  · unfold generateVoronoiCandidates
    split
    · exact List.Pairwise.nil
    · split
      · exact List.Pairwise.nil
      · dsimp only
        split
        · exact List.Pairwise.nil
        · unfold voronoiPost
          dsimp only
          split
          case isTrue hle => exact pairwise_of_length_le_one hle
          case isFalse => exact greedyMinSep_pairwise dist hsymm _
  · unfold generateFermatCandidates
    split
    · exact List.Pairwise.nil
    · dsimp only
      split
      · exact List.Pairwise.nil
      · unfold fermatPost
        split
        case isTrue => exact greedyMinSep_pairwise dist hsymm _
        case isFalse hgt => exact pairwise_of_length_le_one (by omega)
  · intro h3
    unfold generateVoronoiCandidates generateFermatCandidates
    rw [if_pos h3, if_pos h3]
    exact ⟨rfl, rfl⟩

/-- Witness for C8 with the constant-zero (symmetric) metric, an oracle
vertex list and a concrete three-point input. -/
theorem c8_witness :
    (generateVoronoiCandidates distZero [(5, 5)] [pC9, (1, 1), (2, 2)]).Pairwise
        (fun a b => MIN_CANDIDATE_SEPARATION ≤ distZero a b) ∧
      (generateFermatCandidates distZero fermatFst [] [pC9, (1, 1), (2, 2)] 30).Pairwise
        (fun a b => MIN_CANDIDATE_SEPARATION ≤ distZero a b) ∧
      (([pC9, (1, 1), (2, 2)] : List Point).length < 3 →
        generateVoronoiCandidates distZero [(5, 5)] [pC9, (1, 1), (2, 2)] = [] ∧
          generateFermatCandidates distZero fermatFst [] [pC9, (1, 1), (2, 2)] 30 = []) :=
  c8_candidate_separation distZero [(5, 5)] [pC9, (1, 1), (2, 2)] fermatFst [] 30
    (fun _ _ => rfl)

/-- C9 (amended): the Voronoi strategy's post-processing equals
dedup-at-6-decimals followed by the greedy latitude-sorted
minimum-separation filter, but the Fermat strategy's post-processing is the
greedy filter alone — it performs no deduplication. -/
theorem c9_post_processing (dist : Point → Point → ℚ) (c : List Point) :
    voronoiPost dist c = dedupThenFilterPost dist c ∧
      fermatPost dist c = filterOnlyPost dist c := by
  constructor
  · unfold voronoiPost dedupThenFilterPost
    dsimp only
    split
    case isTrue hle => exact (greedy_short dist hle).symm
    case isFalse => rfl
  · unfold fermatPost filterOnlyPost
    split
    case isTrue => rfl
    case isFalse hgt => exact (greedy_short dist (by omega)).symm

theorem round6_zero : round6 (0 : ℚ) = 0 := by
  unfold round6 roundHalfEven
  norm_num

theorem floor_c9 : (⌊(1234567 : ℚ) / 10⌋ : ℤ) = 123456 := by
  rw [Int.floor_eq_iff]
  constructor <;> norm_num

theorem round6_c9 : round6 ((1234567 : ℚ) / 10000000) = 123457 / 1000000 := by
  unfold round6 roundHalfEven
  have hmul : (1234567 : ℚ) / 10000000 * 1000000 = 1234567 / 10 := by norm_num
  rw [hmul, floor_c9]
  norm_num

theorem dedup6_c9 : dedup6 [pC9] = [((123457 : ℚ) / 1000000, 0)] := by
  unfold dedup6
  have hmap : ([pC9].map round6Pt) = [((123457 : ℚ) / 1000000, 0)] := by
    unfold round6Pt pC9
    rw [List.map_singleton]
    rw [round6_c9, round6_zero]
  rw [hmap]
  rw [List.dedup_cons_of_not_mem (List.not_mem_nil _), List.dedup_nil]
  rfl

theorem dedupThenFilterPost_c9 :
    dedupThenFilterPost distZero [pC9] = [((123457 : ℚ) / 1000000, 0)] := by
  unfold dedupThenFilterPost
  rw [dedup6_c9]
  exact greedy_short distZero (by simp)

/-- C9 counterexample: on a concrete three-point input whose Delaunay
oracle yields one triangle and whose Fermat point has a seventh decimal
digit, the Fermat strategy returns the candidate unchanged, whereas the
claimed dedup-then-filter post-processing would round it to 6 decimals —
so the Fermat strategy does not conclude with the claimed rounding-based
deduplication. -/
theorem c9_counterexample :
    generateFermatCandidates distZero fermatFst [(0, 1, 2)] [pC9, (1, 1), (2, 2)] 30 =
        [pC9] ∧
      dedupThenFilterPost distZero [pC9] ≠ [pC9] := by
  refine ⟨rfl, ?_⟩
  rw [dedupThenFilterPost_c9]
  intro hcon
  have h2 : (((123457 : ℚ) / 1000000, (0 : ℚ)) : Point) = pC9 :=
    ((List.cons.injEq _ _ _ _).mp hcon).1
  unfold pC9 at h2
  have h3 : (123457 : ℚ) / 1000000 = 1234567 / 10000000 :=
    ((Prod.mk.injEq _ _ _ _).mp h2).1
  norm_num at h3
